import Mathlib

/-
  Verification development for the bookmark deduplication engine
  (scripts/utils/deduplication.py and scripts/models/database.py).

  Strings are modelled as `List Char` (Python str, code-point sequences).
  Python floats are modelled as exact rationals; Python ints as `Int`.
  The Python standard library functions used by the engine
  (urllib.parse.urlparse / urlunparse / parse_qs, difflib.SequenceMatcher,
  str methods) are embedded following the CPython 3.11 sources, restricted
  where noted in comments to the ASCII fragment actually exercised here.
-/

namespace Dedup

abbrev Str := List Char

/-- Python str.lower for the ASCII fragment (the engine lower-cases URLs
and titles; non-ASCII case mapping is not modelled). -/
def pyLower (s : Str) : Str :=
  s.map fun c => if 'A' ≤ c ∧ c ≤ 'Z' then Char.ofNat (c.toNat + 32) else c

/-- Python whitespace test for str.strip / str.split (ASCII whitespace). -/
def pyIsSpace (c : Char) : Bool :=
  c = ' ' || c = '\t' || c = '\n' || c = '\x0d' || c = '\x0b' || c = '\x0c'

/-- Python str.strip() with no argument. -/
def pyStrip (s : Str) : Str :=
  ((s.dropWhile fun c => pyIsSpace c).reverse.dropWhile fun c => pyIsSpace c).reverse

/-- Python str.rstrip(chars): drop trailing characters from the given set. -/
def pyRstrip (s : Str) (cs : List Char) : Str :=
  (s.reverse.dropWhile fun c => cs.contains c).reverse

/-- Python str.split(sep) for a one-character separator: note
"".split(sep) is [""] in Python. -/
def pySplitChar (sep : Char) (s : Str) : List Str :=
  match s with
  | [] => [[]]
  | c :: rest =>
    match pySplitChar sep rest with
    | [] => if c = sep then [[], []] else [[c]]
    | seg :: segs => if c = sep then [] :: seg :: segs else (c :: seg) :: segs

/-- Python str.split(sep, 1): split at the first occurrence only. -/
def pySplitFirst (sep : Char) (s : Str) : Str × Option Str :=
  match s with
  | [] => ([], none)
  | c :: rest =>
    if c = sep then ([], some rest)
    else
      let (pre, post) := pySplitFirst sep rest
      (c :: pre, post)

/-- Python sep.join(parts). -/
def pyJoin (sep : Str) (parts : List Str) : Str :=
  match parts with
  | [] => []
  | [p] => p
  | p :: rest => p ++ sep ++ pyJoin sep rest

/-- Python str.split() with no argument: split on whitespace runs,
discarding empty pieces. -/
def pySplitWs (s : Str) : List Str :=
  ((pySplitChar ' ' (s.map fun c => if pyIsSpace c then ' ' else c)).filter
    fun seg => seg ≠ [])

/-- First index of a character, if present (Python str.find). -/
def pyFindChar (s : Str) (c : Char) : Option Nat :=
  s.findIdx? fun d => d = c

/-- Python string comparison (lexicographic by code point), as a Bool. -/
def strLt : Str → Str → Bool
  | [], [] => false
  | [], _ :: _ => true
  | _ :: _, [] => false
  | a :: as, b :: bs => if a < b then true else if b < a then false else strLt as bs

/-- Python string ≤ used for sorting pairs by key. -/
def strLe (a b : Str) : Bool := !(strLt b a)

end Dedup

namespace Dedup

/-! ## urllib.parse model (CPython 3.11)

`urlsplit` strips leading C0-control-or-space characters, removes every
tab, CR and LF, detects an optional scheme, splits `//netloc` at the first
of `/?#`, then splits the fragment at the first `#` and the query at the
first `?`.  A netloc containing a bracket makes `urlsplit` raise (the model
treats every bracketed netloc as a parse failure; validation of well formed
IPv6 hosts is elided, a bracketed host is never produced by this code base).
-/

def schemeChars : List Char :=
  ("abcdefghijklmnopqrstuvwxyzABCDEFGHIJKLMNOPQRSTUVWXYZ0123456789+-.").toList

def usesNetloc : List Str :=
  ["", "ftp", "http", "gopher", "nntp", "telnet", "imap", "wais", "file",
   "mms", "https", "shttp", "snews", "prospero", "rtsp", "rtsps", "rtspu",
   "rsync", "svn", "svn+ssh", "sftp", "nfs", "git", "git+ssh", "ws",
   "wss"].map String.toList

def usesParams : List Str :=
  ["", "ftp", "hdl", "prospero", "http", "imap", "https", "shttp", "rtsp",
   "rtspu", "sip", "sips", "mms", "sftp", "tel"].map String.toList

structure SplitResult where
  scheme : Str
  netloc : Str
  path : Str
  query : Str
  fragment : Str
deriving DecidableEq, Repr

structure ParseResult where
  scheme : Str
  netloc : Str
  path : Str
  params : Str
  query : Str
  fragment : Str
deriving DecidableEq, Repr

deriving instance DecidableEq for Except

/-- urllib.parse._splitnetloc: take characters after the two slashes up to
the first of `/?#`. -/
def splitnetloc (s : Str) : Str × Str :=
  ((s.takeWhile fun c => c ≠ '/' ∧ c ≠ '?' ∧ c ≠ '#'),
   (s.dropWhile fun c => c ≠ '/' ∧ c ≠ '?' ∧ c ≠ '#'))

/-- Scheme detection of urlsplit: the text before the first `:` must start
with an ASCII letter and consist of scheme characters only. -/
def schemeSplit (url : Str) : Str × Str :=
  match pyFindChar url ':' with
  | none => ([], url)
  | some i =>
    if 0 < i then
      match url with
      | [] => ([], url)
      | c0 :: _ =>
        if (c0.isAlpha ∧ (url.take i).all fun c => schemeChars.contains c) then
          (pyLower (url.take i), url.drop (i + 1))
        else ([], url)
    else ([], url)

/-- urllib.parse.urlsplit (CPython 3.11), as a fallible function. -/
def urlsplitE (url0 : Str) : Except Unit SplitResult := do
  let url1 := url0.dropWhile fun c => c.toNat ≤ 32
  let url2 := url1.filter fun c => c ≠ '\t' ∧ c ≠ '\x0d' ∧ c ≠ '\n'
  let (scheme, url3) := schemeSplit url2
  let (netloc, url4) :=
    if url3.take 2 = ['/', '/'] then splitnetloc (url3.drop 2) else ([], url3)
  if netloc.contains '[' ∨ netloc.contains ']' then
    throw ()
  let (url5, fragment) :=
    match pySplitFirst '#' url4 with
    | (pre, some post) => (pre, post)
    | (pre, none) => (pre, [])
  let (url6, query) :=
    match pySplitFirst '?' url5 with
    | (pre, some post) => (pre, post)
    | (pre, none) => (pre, [])
  return ⟨scheme, netloc, url6, query, fragment⟩

/-- urllib.parse._splitparams. -/
def splitparams (url : Str) : Str × Str :=
  let lastSlash := url.length - 1 - (url.reverse.findIdx fun c => c = '/')
  if url.contains '/' then
    match (url.drop lastSlash).findIdx? fun c => c = ';' with
    | none => (url, [])
    | some d => (url.take (lastSlash + d), url.drop (lastSlash + d + 1))
  else
    match url.findIdx? fun c => c = ';' with
    | none => (url, [])
    | some i => (url.take i, url.drop (i + 1))

/-- urllib.parse.urlparse. -/
def urlparseE (url : Str) : Except Unit ParseResult := do
  let s ← urlsplitE url
  let (path, params) :=
    if usesParams.contains s.scheme ∧ s.path.contains ';' then
      splitparams s.path
    else (s.path, [])
  return ⟨s.scheme, s.netloc, path, params, s.query, s.fragment⟩

/-- urllib.parse.urlunsplit (CPython 3.11). -/
def urlunsplit (scheme netloc url query fragment : Str) : Str :=
  let url :=
    if netloc ≠ [] ∨ (scheme ≠ [] ∧ usesNetloc.contains scheme ∧
        url.take 2 ≠ ['/', '/']) then
      let url := if url ≠ [] ∧ url.take 1 ≠ ['/'] then '/' :: url else url
      ['/', '/'] ++ netloc ++ url
    else url
  let url := if scheme ≠ [] then scheme ++ [':'] ++ url else url
  let url := if query ≠ [] then url ++ ['?'] ++ query else url
  if fragment ≠ [] then url ++ ['#'] ++ fragment else url

/-- urllib.parse.urlunparse. -/
def urlunparse (scheme netloc url params query fragment : Str) : Str :=
  let url := if params ≠ [] then url ++ [';'] ++ params else url
  urlunsplit scheme netloc url query fragment

end Dedup

namespace Dedup

/-! ## urllib.parse.unquote and parse_qs

`unquote` returns its argument unchanged when it contains no percent sign
(the early return in CPython).  Otherwise ASCII runs are percent-decoded to
bytes and decoded as UTF-8 with replacement; the replacement boundaries for
malformed multi-byte sequences are best effort (every use in the theorems
below is under a no-percent hypothesis, where `unquote` is the identity).
-/

/-- UTF-8 encoding of one code point. -/
def utf8EncodeChar (c : Char) : List Nat :=
  let n := c.toNat
  if n < 0x80 then [n]
  else if n < 0x800 then [0xC0 + n / 64, 0x80 + n % 64]
  else if n < 0x10000 then [0xE0 + n / 4096, 0x80 + (n / 64) % 64, 0x80 + n % 64]
  else [0xF0 + n / 262144, 0x80 + (n / 4096) % 64, 0x80 + (n / 64) % 64,
        0x80 + n % 64]

def isUtf8Cont (b : Nat) : Bool := 0x80 ≤ b ∧ b ≤ 0xBF

def utf8DecodeReplace (fuel : Nat) (bs : List Nat) : Str :=
  match fuel, bs with
  | 0, _ => []
  | _, [] => []
  | fuel + 1, b :: rest =>
    if b < 0x80 then Char.ofNat b :: utf8DecodeReplace fuel rest
    else if 0xC2 ≤ b ∧ b ≤ 0xDF then
      match rest with
      | c1 :: rest2 =>
        if isUtf8Cont c1 then
          Char.ofNat ((b - 0xC0) * 64 + (c1 - 0x80)) :: utf8DecodeReplace fuel rest2
        else '\uFFFD' :: utf8DecodeReplace fuel rest
      | [] => ['\uFFFD']
    else if 0xE0 ≤ b ∧ b ≤ 0xEF then
      match rest with
      | c1 :: c2 :: rest2 =>
        if isUtf8Cont c1 ∧ isUtf8Cont c2 ∧
            (b ≠ 0xE0 ∨ 0xA0 ≤ c1) ∧ (b ≠ 0xED ∨ c1 ≤ 0x9F) then
          Char.ofNat ((b - 0xE0) * 4096 + (c1 - 0x80) * 64 + (c2 - 0x80)) ::
            utf8DecodeReplace fuel rest2
        else '\uFFFD' :: utf8DecodeReplace fuel rest
      | _ => ['\uFFFD']
    else if 0xF0 ≤ b ∧ b ≤ 0xF4 then
      match rest with
      | c1 :: c2 :: c3 :: rest2 =>
        if isUtf8Cont c1 ∧ isUtf8Cont c2 ∧ isUtf8Cont c3 ∧
            (b ≠ 0xF0 ∨ 0x90 ≤ c1) ∧ (b ≠ 0xF4 ∨ c1 ≤ 0x8F) then
          Char.ofNat ((b - 0xF0) * 262144 + (c1 - 0x80) * 4096 +
              (c2 - 0x80) * 64 + (c3 - 0x80)) :: utf8DecodeReplace fuel rest2
        else '\uFFFD' :: utf8DecodeReplace fuel rest
      | _ => ['\uFFFD']
    else '\uFFFD' :: utf8DecodeReplace fuel rest

def hexVal (c : Char) : Option Nat :=
  if '0' ≤ c ∧ c ≤ '9' then some (c.toNat - 48)
  else if 'a' ≤ c ∧ c ≤ 'f' then some (c.toNat - 87)
  else if 'A' ≤ c ∧ c ≤ 'F' then some (c.toNat - 70)
  else none

/-- urllib.parse.unquote_to_bytes on one text chunk: split on percent signs
and decode two-digit hex pairs; an invalid pair keeps the literal percent. -/
def percentDecodeBytes (s : Str) : List Nat :=
  match s with
  | [] => []
  | '%' :: c1 :: c2 :: rest =>
    match hexVal c1, hexVal c2 with
    | some h1, some h2 => (h1 * 16 + h2) :: percentDecodeBytes rest
    | _, _ => 37 :: percentDecodeBytes (c1 :: c2 :: rest)
  | '%' :: rest => 37 :: percentDecodeBytes rest
  | c :: rest => utf8EncodeChar c ++ percentDecodeBytes rest

/-- Maximal runs of a list, paired with whether the run satisfies p. -/
def runsBy (p : Char → Bool) : Str → List (Bool × Str)
  | [] => []
  | c :: rest =>
    match runsBy p rest with
    | (b, run) :: more =>
      if p c = b then (b, c :: run) :: more else (p c, [c]) :: (b, run) :: more
    | [] => [(p c, [c])]

/-- urllib.parse.unquote: identity when no percent sign is present; ASCII
runs are percent-decoded and UTF-8-decoded with replacement, non-ASCII runs
pass through. -/
def pyUnquote (s : Str) : Str :=
  if ¬ s.contains '%' then s
  else
    (runsBy (fun c => c.toNat ≤ 127) s).flatMap fun br =>
      if br.1 then
        let bs := percentDecodeBytes br.2
        utf8DecodeReplace (bs.length + 1) bs
      else br.2

/-- Python str.replace for a one-character pattern. -/
def plusToSpace (s : Str) : Str := s.map fun c => if c = '+' then ' ' else c

/-- urllib.parse.parse_qsl with default arguments (blank values dropped,
fields without an equals sign dropped, separator `&`). -/
def parse_qsl (qs : Str) : List (Str × Str) :=
  if qs = [] then []
  else
    (pySplitChar '&' qs).filterMap fun nv =>
      if nv = [] then none
      else
        match pySplitFirst '=' nv with
        | (_, none) => none
        | (n, some v) =>
          if v ≠ [] then
            some (pyUnquote (plusToSpace n), pyUnquote (plusToSpace v))
          else none

def qsInsert (acc : List (Str × List Str)) (k : Str) (v : Str) :
    List (Str × List Str) :=
  match acc with
  | [] => [(k, [v])]
  | (k0, vs) :: rest =>
    if k0 = k then (k0, vs ++ [v]) :: rest else (k0, vs) :: qsInsert rest k v

/-- urllib.parse.parse_qs: group parse_qsl pairs by key, keys in first
occurrence order (Python dict insertion order). -/
def parse_qs (qs : Str) : List (Str × List Str) :=
  (parse_qsl qs).foldl (fun acc kv => qsInsert acc kv.1 kv.2) []

end Dedup

namespace Dedup

/-! ## The URL Normalizer (BookmarkDeduplicator.normalize_url)

The tracking set is embedded verbatim, including the entry
hsCtaTracking whose mixed case can never equal a lower-cased key. -/

def trackingParams : List Str :=
  ["utm_source", "utm_medium", "utm_campaign", "utm_content", "utm_term",
   "fb_source", "fb_ref", "fbclid", "gclid", "gclsrc", "ref", "source",
   "campaign", "_ga", "_gac", "_gid", "mc_cid", "mc_eid", "hsCtaTracking",
   "hsa_acc", "hsa_cam", "hsa_grp", "hsa_ad", "igshid", "feature", "ncid",
   "cmpid", "sr_share"].map String.toList

/-- Rebuild one query item: key=value, or key=v1&v2 when several values. -/
def rebuildItem (kv : Str × List Str) : Str :=
  if kv.2.length > 1 then kv.1 ++ ['='] ++ pyJoin ['&'] kv.2
  else kv.1 ++ ['='] ++ kv.2.headI

/-- The filtered, key-sorted query pairs used by normalize_url. -/
def filteredSortedQuery (query : Str) : List (Str × List Str) :=
  ((parse_qs query).filter fun kv =>
      ¬ trackingParams.contains (pyLower kv.1)).insertionSort
    fun kv1 kv2 => strLe kv1.1 kv2.1

/-- The normalized path: strip every trailing slash, an empty result
becomes the root path. -/
def cleanPath (path : Str) : Str :=
  let r := pyRstrip path ['/']
  if r = [] then ['/'] else r

/-- BookmarkDeduplicator.normalize_url: lower-case and strip, parse, drop
the fragment, drop tracking query keys, sort the remaining keys, strip
trailing slashes of the path; any parse failure falls back to the
lower-cased, stripped input.  The URL cache is a pure memo and is
transparent to the result. -/
def normalize_url (url : Str) : Str :=
  let s := pyLower (pyStrip url)
  match urlparseE s with
  | .error _ => s
  | .ok p =>
    let newQuery := pyJoin ['&'] ((filteredSortedQuery p.query).map rebuildItem)
    urlunparse p.scheme p.netloc (cleanPath p.path) p.params newQuery []

/-- DatabaseManager.generate_url_hash, up to the final md5 digest: the
string handed to md5 is url.rstrip(sol).split(hash)[0].lower(). -/
def url_hash_input (url : Str) : Str :=
  pyLower (pySplitFirst '#' (pyRstrip url ['/'])).1

/-- DatabaseManager.generate_url_hash: the md5 hex digest of
url_hash_input; the digest function is kept abstract. -/
def generate_url_hash (md5hex : Str → Str) (url : Str) : Str :=
  md5hex (url_hash_input url)

end Dedup

namespace Dedup

/-! ## difflib.SequenceMatcher model

The engine calls SequenceMatcher(None, s1, s2).ratio() only when both
strings have length at most 100, so the autojunk purge (which needs a
second sequence of length at least 200) never fires and b2j holds every
position of b.  The model therefore has no junk handling; the two
extension loops of find_longest_match are kept (they are no-ops without
junk).  ratio() sums the sizes of the recursively found longest matches;
the queue order and the adjacent-block merge of get_matching_blocks do
not change that sum, so the model sums over the recursion directly. -/

/-- One row of the j2len dynamic programming table: entry j is the length
of the match ending at a[i], b[j] that stays inside [blo, bhi). -/
def flmNewRow (a b : Array Char) (i blo bhi : Nat) (prev : List Nat) :
    List Nat :=
  (List.range b.size).map fun j =>
    if a.getD i ' ' = b.getD j ' ' ∧ blo ≤ j ∧ j < bhi then
      (if j = 0 then 0 else prev.getD (j - 1) 0) + 1
    else 0

/-- Scan a row with ascending j, replacing the best block on a strictly
longer match, exactly as the inner loop updates (besti, bestj, bestsize). -/
def flmScanRow (i : Nat) (row : List Nat) (best : Nat × Nat × Nat) :
    Nat × Nat × Nat :=
  (List.range row.length).foldl
    (fun bst j =>
      let k := row.getD j 0
      if k > bst.2.2 then (i + 1 - k, j + 1 - k, k) else bst)
    best

/-- The main dynamic-programming loop of find_longest_match. -/
def flmLoop (a b : Array Char) (alo ahi blo bhi : Nat) : Nat × Nat × Nat :=
  ((List.range' alo (ahi - alo)).foldl
    (fun st i =>
      let row := flmNewRow a b i blo bhi st.1
      (row, flmScanRow i row st.2))
    (List.replicate b.size 0, (alo, blo, 0))).2

/-- The left extension loop of find_longest_match (junk-free form). -/
def extendLeft (a b : Array Char) (alo blo : Nat) :
    Nat → Nat × Nat × Nat → Nat × Nat × Nat
  | 0, best => best
  | fuel + 1, (besti, bestj, bestsize) =>
    if besti > alo ∧ bestj > blo ∧
        a.getD (besti - 1) ' ' = b.getD (bestj - 1) '!' then
      extendLeft a b alo blo fuel (besti - 1, bestj - 1, bestsize + 1)
    else (besti, bestj, bestsize)

/-- The right extension loop of find_longest_match (junk-free form). -/
def extendRight (a b : Array Char) (ahi bhi besti bestj : Nat) :
    Nat → Nat → Nat
  | 0, bestsize => bestsize
  | fuel + 1, bestsize =>
    if besti + bestsize < ahi ∧ bestj + bestsize < bhi ∧
        a.getD (besti + bestsize) ' ' = b.getD (bestj + bestsize) '!' then
      extendRight a b ahi bhi besti bestj fuel (bestsize + 1)
    else bestsize

/-- difflib SequenceMatcher.find_longest_match over a[alo:ahi], b[blo:bhi]
with no junk. -/
def findLongestMatch (a b : Array Char) (alo ahi blo bhi : Nat) :
    Nat × Nat × Nat :=
  let best := flmLoop a b alo ahi blo bhi
  let best := extendLeft a b alo blo best.1 best
  (best.1, best.2.1,
   extendRight a b ahi bhi best.1 best.2.1 ahi best.2.2)

/-- Total size of the matching blocks of get_matching_blocks, computed by
the recursion that the queue in difflib unfolds; fuel dominates the
recursion depth. -/
def matchTotal (a b : Array Char) : Nat → Nat → Nat → Nat → Nat → Nat
  | 0, _, _, _, _ => 0
  | fuel + 1, alo, ahi, blo, bhi =>
    let m := findLongestMatch a b alo ahi blo bhi
    let i := m.1
    let j := m.2.1
    let k := m.2.2
    if k = 0 then 0
    else
      (if alo < i ∧ blo < j then matchTotal a b fuel alo i blo j else 0) + k +
      (if i + k < ahi ∧ j + k < bhi then
        matchTotal a b fuel (i + k) ahi (j + k) bhi
      else 0)

/-- Matched element count of SequenceMatcher(None, s1, s2). -/
def smMatches (s1 s2 : Str) : Nat :=
  let a := s1.toArray
  let b := s2.toArray
  matchTotal a b (s1.length + s2.length + 1) 0 s1.length 0 s2.length

/-- SequenceMatcher.ratio() = 2 M / (len a + len b), as an exact rational
(only called on two non-empty sequences by this code base). -/
def difflibRatio (s1 s2 : Str) : ℚ :=
  2 * (smMatches s1 s2 : ℚ) / ((s1.length : ℚ) + (s2.length : ℚ))

/-- Character bigram list, set-collapsed by toFinset below. -/
def bigrams (s : Str) : List Str :=
  List.zipWith (fun c1 c2 => [c1, c2]) s s.tail

/-- BookmarkDeduplicator._fast_string_similarity: emptiness and equality
shortcuts, bigram Jaccard above the 100-character cutover, difflib ratio
below it. -/
def fast_string_similarity (s1 s2 : Str) : ℚ :=
  if s1 = [] ∧ s2 = [] then 1
  else if s1 = [] ∨ s2 = [] then 0
  else if s1 = s2 then 1
  else if s1.length > 100 ∨ s2.length > 100 then
    let b1 := (bigrams s1).toFinset
    let b2 := (bigrams s2).toFinset
    if b1 = ∅ ∧ b2 = ∅ then 1
    else if b1 = ∅ ∨ b2 = ∅ then 0
    else
      let inter := (b1 ∩ b2).card
      let union := (b1 ∪ b2).card
      if union > 0 then (inter : ℚ) / (union : ℚ) else 0
  else difflibRatio s1 s2

/-- Title normalization of calculate_title_similarity: lower, strip, then
re.sub removes every character that is neither a word character nor
whitespace (ASCII word characters modelled). -/
def normTitle (t : Str) : Str :=
  (pyLower (pyStrip t)).filter fun c => c.isAlphanum ∨ c = '_' ∨ pyIsSpace c

/-- BookmarkDeduplicator.calculate_title_similarity. -/
def calculate_title_similarity (t1 t2 : Str) : ℚ :=
  if t1 = [] ∨ t2 = [] then 0
  else
    let n1 := normTitle t1
    let n2 := normTitle t2
    if n1 = n2 then 1
    else
      let w1 := (pySplitWs n1).toFinset
      let w2 := (pySplitWs n2).toFinset
      if w1 ≠ ∅ ∧ w2 ≠ ∅ then
        let ws : ℚ := ((w1 ∩ w2).card : ℚ) / ((w1 ∪ w2).card : ℚ)
        if ws < 1 / 5 then ws * (1 / 2) else fast_string_similarity n1 n2
      else fast_string_similarity n1 n2

/-- Number of equal characters at equal positions among the first n. -/
def countEqPre (s1 s2 : Str) (n : Nat) : Nat :=
  (List.zipWith (fun a b => if a = b then 1 else 0) (s1.take n) (s2.take n)).sum

/-- BookmarkDeduplicator.calculate_url_similarity, the computation on a
cache miss (the unordered-key cache is modelled separately below): equal
canonical forms score 1, different hosts score 0, long clearly divergent
URLs return the scaled-down 50-character prefix score, otherwise the
weighted mean of difflib path similarity (0.8) and query-key-set Jaccard
similarity (0.2); a parse failure of either canonical form falls back to
fast string similarity of the canonical forms. -/
def queryKeyJaccard (q1 q2 : Str) : ℚ :=
  let ks1 := ((parse_qs q1).map Prod.fst).toFinset
  let ks2 := ((parse_qs q2).map Prod.fst).toFinset
  if ks1 ≠ ∅ ∨ ks2 ≠ ∅ then
    ((ks1 ∩ ks2).card : ℚ) / ((ks1 ∪ ks2).card : ℚ)
  else 1

/-- The 0.8 path similarity + 0.2 query-key Jaccard mean. -/
def pathParamScore (p1 p2 : ParseResult) : ℚ :=
  fast_string_similarity p1.path p2.path * (4 / 5) +
    queryKeyJaccard p1.query p2.query * (1 / 5)

/-- The fast-path 50-character prefix check for long divergent URLs. -/
def prefixShortcut (n1 n2 : Str) : Option ℚ :=
  if n1.length > 50 ∧ n2.length > 50 then
    if (countEqPre n1 n2 50 : ℚ) / 50 < 2 / 5 then
      some ((countEqPre n1 n2 50 : ℚ) / 50 * (3 / 5))
    else none
  else none

/-- The body of calculate_url_similarity on the two canonical forms. -/
def urlSimCore (n1 n2 : Str) : ℚ :=
  if n1 = n2 then 1
  else
    match urlparseE n1, urlparseE n2 with
    | .ok p1, .ok p2 =>
      if p1.netloc ≠ p2.netloc then 0
      else
        match prefixShortcut n1 n2 with
        | some r => r
        | none => pathParamScore p1 p2
    | _, _ => fast_string_similarity n1 n2

def calculate_url_similarity (u1 u2 : Str) : ℚ :=
  urlSimCore (normalize_url u1) (normalize_url u2)

/-- The similarity cache of the deduplicator instance, keyed by the
unordered pair of raw URLs. -/
abbrev SimCache := List ((Str × Str) × ℚ)

/-- The cache key: (url1, url2) if url1 < url2 else (url2, url1). -/
def simCacheKey (u1 u2 : Str) : Str × Str :=
  if strLt u1 u2 then (u1, u2) else (u2, u1)

/-- calculate_url_similarity with its cache: a hit returns the stored
value, a miss computes and stores. -/
def calculate_url_similarity_cached (cache : SimCache) (u1 u2 : Str) :
    ℚ × SimCache :=
  match cache.find? fun e => e.1 = simCacheKey u1 u2 with
  | some e => (e.2, cache)
  | none =>
    let v := calculate_url_similarity u1 u2
    (v, cache ++ [(simCacheKey u1 u2, v)])

end Dedup

namespace Dedup

/-! ## Duplicate Finder, approximate pass
(BookmarkDeduplicator._find_similar_in_batch / find_similar_duplicates)

A bookmark row as the domain batch query returns it; a NULL title is
`none` (the code guards every use with falsiness checks, modelled by
`Option.getD`). -/

structure SBook where
  id : Int
  url : Str
  title : Option Str
  created_at : Int
  domain : Str
deriving DecidableEq, Repr

/-- The per-bookmark data precomputed at the top of the batch loop. -/
structure NormData where
  bk : SBook
  norm_url : Str
  norm_title : Str
  parts : ParseResult
  title_words : Finset Str
deriving DecidableEq

/-- The precomputation loop: urlparse of a canonical form can raise, which
aborts the whole batch (and with it the pass). -/
def precompute (bs : List SBook) : Except Unit (List NormData) :=
  bs.mapM fun b => do
    let nu := normalize_url b.url
    let p ← urlparseE nu
    let nt := normTitle (b.title.getD [])
    pure ⟨b, nu, nt, p, if nt ≠ [] then (pySplitWs nt).toFinset else ∅⟩

/-- The unordered pair key entered into processed_pairs. -/
def pairKey (i1 i2 : Int) : Int × Int :=
  if i1 ≤ i2 then (i1, i2) else (i2, i1)

/-- Early exit 1: normalized URL lengths differing by more than half of
the longer length.  (The denominator is never zero: a canonical form is
never the empty string; rational division by zero would yield 0 here.) -/
def skipLengthFilter (d1 d2 : NormData) : Bool :=
  ((((d1.norm_url.length : Int) - (d2.norm_url.length : Int)).natAbs : ℚ) /
      ((max d1.norm_url.length d2.norm_url.length : Nat) : ℚ)) > 1 / 2

/-- Early exit 2: neither path is a prefix-extension of the first ten
characters of the other, and the titles share fewer than two words. -/
def skipPathFilter (d1 d2 : NormData) : Bool :=
  (d1.parts.path ≠ [] ∧ d2.parts.path ≠ [] ∧
    ¬ List.isPrefixOf (d2.parts.path.take 10) d1.parts.path ∧
    ¬ List.isPrefixOf (d1.parts.path.take 10) d2.parts.path) ∧
  (d1.title_words ∩ d2.title_words).card < 2

/-- Early exit 3: word-set Jaccard below 0.3 and the 30-character URL
heads differ. -/
def skipWordsFilter (d1 d2 : NormData) : Bool :=
  d1.title_words ≠ ∅ ∧ d2.title_words ≠ ∅ ∧
  ((d1.title_words ∪ d2.title_words).card > 0 ∧
    (((d1.title_words ∩ d2.title_words).card : ℚ) /
        (((d1.title_words ∪ d2.title_words).card : Nat) : ℚ)) < 3 / 10 ∧
    ¬ (d1.norm_url ≠ [] ∧ d2.norm_url ≠ [] ∧
        d1.norm_url.take 30 = d2.norm_url.take 30))

def groupHas (g : List SBook) (i : Int) : Bool := g.any fun b => b.id = i

/-- Appending the pair members to the found group, each guarded by a
membership test on the group as already extended. -/
def addToGroup (g : List SBook) (b1 b2 : SBook) : List SBook :=
  let g1 := if ¬ groupHas g b1.id then g ++ [b1] else g
  if ¬ groupHas g1 b2.id then g1 ++ [b2] else g1

/-- The combined similarity of one candidate pair as the batch loop
computes it. -/
def combinedSimilarity (b1 b2 : SBook) : ℚ :=
  calculate_url_similarity b1.url b2.url * (4 / 5) +
    calculate_title_similarity (b1.title.getD []) (b2.title.getD []) * (1 / 5)

/-- One iteration of the inner pair loop of _find_similar_in_batch. -/
def batchStep (θ : ℚ) (st : List (List SBook) × List (Int × Int))
    (p : NormData × NormData) : List (List SBook) × List (Int × Int) :=
  let d1 := p.1
  let d2 := p.2
  let key := pairKey d1.bk.id d2.bk.id
  if st.2.contains key then st
  else
    let processed := st.2 ++ [key]
    let groups := st.1
    if skipLengthFilter d1 d2 then (groups, processed)
    else if skipPathFilter d1 d2 then (groups, processed)
    else if skipWordsFilter d1 d2 then (groups, processed)
    else
      let us := calculate_url_similarity d1.bk.url d2.bk.url
      if us < θ * (3 / 5) then (groups, processed)
      else
        let ts := calculate_title_similarity (d1.bk.title.getD [])
          (d2.bk.title.getD [])
        if us * (4 / 5) + ts * (1 / 5) ≥ θ then
          match groups.findIdx? fun g => groupHas g d1.bk.id ∨ groupHas g d2.bk.id with
          | some gi =>
            (groups.set gi (addToGroup (groups.getD gi []) d1.bk d2.bk), processed)
          | none => (groups ++ [[d1.bk, d2.bk]], processed)
        else (groups, processed)

/-- All index pairs i < j in loop order, realized on the list directly. -/
def ndPairs : List NormData → List (NormData × NormData)
  | [] => []
  | d :: rest => (rest.map fun d2 => (d, d2)) ++ ndPairs rest

/-- BookmarkDeduplicator._find_similar_in_batch: on success returns the
groups of the batch and the updated processed-pairs set. -/
def find_similar_in_batch (bookmarks : List SBook) (θ : ℚ)
    (processed : List (Int × Int)) :
    Except Unit (List (List SBook) × List (Int × Int)) :=
  if bookmarks.length < 2 then .ok ([], processed)
  else do
    let nds ← precompute bookmarks
    pure ((ndPairs nds).foldl (batchStep θ) ([], processed))

/-- The record store as find_similar_duplicates queries it: the active
count, the per-domain counts (the SQL keeps only domains with at least
two active records), and the batch fetch for one domain; each query can
fail. -/
structure SimStore where
  countActive : Except Unit Nat
  domainCounts : Except Unit (List (Str × Nat))
  fetchByDomain : Str → Nat → Except Unit (List SBook)

/-- The domain loop: a failing fetch or batch aborts and returns the
groups accumulated so far (the exception lands in the except block of
find_similar_duplicates, which only logs it). -/
def simLoop (store : SimStore) (θ : ℚ) (batchSize : Nat) :
    List (Str × Nat) → List (List SBook) → List (Int × Int) →
    List (List SBook)
  | [], acc, _ => acc
  | (dom, cnt) :: rest, acc, processed =>
    if cnt < 2 then simLoop store θ batchSize rest acc processed
    else if cnt > 500 then simLoop store θ batchSize rest acc processed
    else
      match store.fetchByDomain dom (min batchSize cnt) with
      | .error _ => acc
      | .ok bks =>
        match find_similar_in_batch bks θ processed with
        | .error _ => acc
        | .ok gp => simLoop store θ batchSize rest (acc ++ gp.1) gp.2

/-- BookmarkDeduplicator.find_similar_duplicates: never raises; every
store failure ends the pass and the accumulated groups (and only they)
are returned. -/
def find_similar_duplicates (store : SimStore) (θ : ℚ) (batchSize : Nat) :
    List (List SBook) :=
  match store.countActive with
  | .error _ => []
  | .ok total =>
    if total < 2 then []
    else
      match store.domainCounts with
      | .error _ => []
      | .ok ds => simLoop store θ batchSize ds [] []

end Dedup

namespace Dedup

/-! ## Merge Resolver and exact pass
(BookmarkDeduplicator.merge_bookmarks / find_exact_duplicates)

The database state: bookmark rows, the tags table, and the
bookmark-to-tag association table (primary key (bookmark_id, tag_id),
embedded as insert-if-absent). -/

structure BRow where
  id : Int
  url : Str
  title : Str
  description : Str
  domain : Str
  created_at : Int
  status : Str
  url_hash : Str
deriving DecidableEq, Repr

structure DB where
  bookmarks : List BRow
  tags : List (Int × Str)
  bookmark_tags : List (Int × Int)
deriving DecidableEq, Repr

/-- A fetched merge row: bookmark columns plus GROUP_CONCAT of its tag
names (NULL when the bookmark has no tags). -/
structure MRow where
  id : Int
  title : Str
  description : Str
  created_at : Int
  tagsConcat : Option Str
deriving DecidableEq, Repr

def tagNames (db : DB) (bid : Int) : List Str :=
  (db.bookmark_tags.filter fun a => a.1 = bid).filterMap fun a =>
    (db.tags.find? fun t => t.1 = a.2).map Prod.snd

/-- The merge SELECT: rows with the given ids, ordered by created_at
(ties resolved by table order; SQL leaves them unspecified), each with
its concatenated tag names. -/
def fetchMergeRows (db : DB) (ids : List Int) : List MRow :=
  ((db.bookmarks.filter fun b => ids.contains b.id).insertionSort
      fun b1 b2 => b1.created_at ≤ b2.created_at).map fun b =>
    let ns := tagNames db b.id
    ⟨b.id, b.title, b.description, b.created_at,
      if ns = [] then none else some (pyJoin [','] ns)⟩

def tagsTruthy (m : MRow) : Bool :=
  match m.tagsConcat with
  | none => false
  | some s => s ≠ []

/-- The scoring key of the survivor selection: (title length, description
length, has-tags, negated id). -/
def mergeKey (m : MRow) : Nat × Nat × Nat × Int :=
  (m.title.length, m.description.length, if tagsTruthy m then 1 else 0, -m.id)

/-- Strict lexicographic comparison of scoring keys (Python tuple >). -/
def keyGt (k1 k2 : Nat × Nat × Nat × Int) : Prop :=
  k1.1 > k2.1 ∨ (k1.1 = k2.1 ∧
    (k1.2.1 > k2.2.1 ∨ (k1.2.1 = k2.2.1 ∧
      (k1.2.2.1 > k2.2.2.1 ∨ (k1.2.2.1 = k2.2.2.1 ∧
        k1.2.2.2 > k2.2.2.2)))))

instance : DecidablePred fun kk : (Nat × Nat × Nat × Int) × (Nat × Nat × Nat × Int) => keyGt kk.1 kk.2 := by
  intro kk
  unfold keyGt
  infer_instance

instance (k1 k2 : Nat × Nat × Nat × Int) : Decidable (keyGt k1 k2) := by
  unfold keyGt
  infer_instance

/-- Python max(bookmarks, key=...): the first element whose key no later
element strictly exceeds. -/
def pyMaxRows (l : List MRow) : Option MRow :=
  match l with
  | [] => none
  | m :: rest =>
    some (rest.foldl (fun best x =>
      if keyGt (mergeKey x) (mergeKey best) then x else best) m)

/-- Survivor selection: an id supplied, non-zero (Python truthiness) and
listed in bookmark_ids is looked up among the fetched rows (a miss makes
the generator raise StopIteration, caught by the merge handler);
otherwise the maximal row under the scoring key wins. -/
def selectPrimary (rows : List MRow) (ids : List Int) (keep : Option Int) :
    Option MRow :=
  match keep with
  | some k =>
    if k ≠ 0 ∧ ids.contains k then rows.find? fun m => m.id = k
    else pyMaxRows rows
  | none => pyMaxRows rows

/-- Splitting one row's concatenated tags on commas, stripping, dropping
blanks. -/
def splitTags (m : MRow) : List Str :=
  match m.tagsConcat with
  | none => []
  | some s =>
    if s = [] then []
    else ((pySplitChar ',' s).map pyStrip).filter fun t => t ≠ []

/-- DatabaseManager.get_or_create_tag as observed from inside a merge:
the lookup runs on a second connection and sees the committed state; the
create path would write on that second connection while the merge
transaction holds the write lock, so it fails, is caught, and yields
None. -/
def get_or_create_tag (db : DB) (name : Str) : Option Int :=
  (db.tags.find? fun t => t.2 = name).map Prod.fst

/-- The committed effect of a successful merge: merged description on the
survivor, the survivor's associations replaced by the union of the
group's resolvable tags, all other group members archived.  Python
iterates sets whose order is arbitrary; the description join order is
modelled by first-occurrence deduplication and the association table is
order-insensitive. -/
def mergeApply (db : DB) (rows : List MRow) (primary : MRow) : DB :=
  let all_tags := (rows.flatMap splitTags).dedup
  let descs := ((rows.map fun m => pyStrip m.description).filter
    fun d => d ≠ []).dedup
  let merged := pyJoin (" | ".toList) descs
  let bookmarks1 := db.bookmarks.map fun b =>
    if b.id = primary.id then
      { b with description := merged }
    else b
  let bt1 := db.bookmark_tags.filter fun a => a.1 ≠ primary.id
  let newAssocs := all_tags.filterMap fun n =>
    (get_or_create_tag db n).map fun tid => (primary.id, tid)
  let bt2 := newAssocs.foldl
    (fun acc a => if acc.contains a then acc else acc ++ [a]) bt1
  let others := (rows.filter fun m => m.id ≠ primary.id).map MRow.id
  let bookmarks2 := bookmarks1.map fun b =>
    if others.contains b.id then { b with status := "archived".toList } else b
  ⟨bookmarks2, db.tags, bt2⟩

/-- BookmarkDeduplicator.merge_bookmarks: all statements run in one
transaction on one connection; `fault` injects a store failure at any
statement of that transaction, whose exception rolls the transaction
back (sqlite3 connection context manager) and is then caught, so the
result is None and the state is untouched.  An empty fetch returns None
before any write. -/
def merge_bookmarks (db : DB) (ids : List Int) (keep : Option Int)
    (fault : Bool) : Option Int × DB :=
  if fault then (none, db)
  else
    let rows := fetchMergeRows db ids
    if rows = [] then (none, db)
    else
      match selectPrimary rows ids keep with
      | none => (none, db)
      | some primary => (some primary.id, mergeApply db rows primary)

/-- The grouping loop of find_exact_duplicates: consecutive rows with one
url_hash accumulate, a hash change emits the group when it has at least
two members. -/
def groupScan : List BRow → List BRow → List (List BRow)
  | [], cur => if cur.length > 1 then [cur] else []
  | r :: rest, cur =>
    match cur with
    | [] => groupScan rest [r]
    | c :: _ =>
      if c.url_hash ≠ r.url_hash then
        (if cur.length > 1 then [cur] else []) ++ groupScan rest [r]
      else groupScan rest (cur ++ [r])

/-- Row order of the detail query: ORDER BY url_hash, created_at ASC
(ties beyond that are left to the engine; the model keeps table order). -/
def exactRowLe (b1 b2 : BRow) : Bool :=
  strLt b1.url_hash b2.url_hash ∨
    (b1.url_hash = b2.url_hash ∧ b1.created_at ≤ b2.created_at)

/-- The active rows of the table. -/
def exactActive (table : List BRow) : List BRow :=
  table.filter fun b => b.status = "active".toList
/-- The active rows whose url_hash is held by more than one active row
(the url_hash IN (...) restriction of the detail query). -/
def exactDupRows (table : List BRow) : List BRow :=
  (exactActive table).filter fun b =>
    ((exactActive table).filter fun c => c.url_hash = b.url_hash).length > 1

/-- BookmarkDeduplicator.find_exact_duplicates over the bookmarks table:
group the active rows by the stored url_hash key, keep the keys held by
more than one active row, group consecutively after sorting. -/
def find_exact_duplicates (table : List BRow) : List (List BRow) :=
  groupScan ((exactDupRows table).insertionSort fun b1 b2 => exactRowLe b1 b2) []

end Dedup

namespace Dedup

/-! ## Specification-side definitions and concrete instances

`specSelectPrimary` renders the survivor selection exactly as the
specification words it, for comparison with the code's `selectPrimary`:
the same priority order but with recency, highest id, as the final
tiebreaker. -/

/-- The specification's scoring key: (title length, description length,
has-any-tags, id) with the highest id preferred. -/
def specMergeKey (m : MRow) : Nat × Nat × Nat × Int :=
  (m.title.length, m.description.length, if tagsTruthy m then 1 else 0, m.id)

def specMaxRows (l : List MRow) : Option MRow :=
  match l with
  | [] => none
  | m :: rest =>
    some (rest.foldl (fun best x =>
      if keyGt (specMergeKey x) (specMergeKey best) then x else best) m)

/-- Survivor selection as the specification describes it. -/
def specSelectPrimary (rows : List MRow) (ids : List Int) (keep : Option Int) :
    Option MRow :=
  match keep with
  | some k => if ids.contains k then rows.find? fun m => m.id = k
              else specMaxRows rows
  | none => specMaxRows rows

/-- Two active rows that agree on every scored field and differ only in
id: the code keeps id 1, the specification text demands id 2. -/
def c1db : DB :=
  ⟨[⟨1, "u1".toList, "t".toList, "d".toList, [], 5, "active".toList, []⟩,
    ⟨2, "u2".toList, "t".toList, "d".toList, [], 5, "active".toList, []⟩],
   [], []⟩

end Dedup

namespace Dedup

/-! ## Order lemmas for the survivor scoring key -/

theorem keyGt_irrefl (k : Nat × Nat × Nat × Int) : ¬ keyGt k k := by
  obtain ⟨a, b, c, d⟩ := k
  unfold keyGt
  dsimp only
  omega

theorem keyGt_trans {k1 k2 k3 : Nat × Nat × Nat × Int}
    (h1 : keyGt k1 k2) (h2 : keyGt k2 k3) : keyGt k1 k3 := by
  obtain ⟨a1, b1, c1, d1⟩ := k1
  obtain ⟨a2, b2, c2, d2⟩ := k2
  obtain ⟨a3, b3, c3, d3⟩ := k3
  unfold keyGt at h1 h2 ⊢
  dsimp only at h1 h2 ⊢
  omega

theorem keyGt_of_not_gt {k1 k2 k3 : Nat × Nat × Nat × Int}
    (h1 : ¬ keyGt k1 k2) (h2 : keyGt k1 k3) : keyGt k2 k3 := by
  obtain ⟨a1, b1, c1, d1⟩ := k1
  obtain ⟨a2, b2, c2, d2⟩ := k2
  obtain ⟨a3, b3, c3, d3⟩ := k3
  unfold keyGt at h1 h2 ⊢
  dsimp only at h1 h2 ⊢
  omega

/-- Python max with a key: the fold keeps the first element whose key no
other element strictly exceeds. -/
theorem foldlMax_spec (key : MRow → Nat × Nat × Nat × Int)
    (l : List MRow) (m : MRow) :
    (l.foldl (fun best x => if keyGt (key x) (key best) then x else best) m)
        ∈ m :: l ∧
      ∀ x ∈ m :: l,
        ¬ keyGt (key x)
          (key (l.foldl
            (fun best x => if keyGt (key x) (key best) then x else best) m)) := by
  induction l generalizing m with
  | nil => simpa using keyGt_irrefl (key m)
  | cons x' rest ih =>
    simp only [List.foldl_cons]
    by_cases hg : keyGt (key x') (key m)
    · rw [if_pos hg]
      obtain ⟨ihmem, ihmax⟩ := ih x'
      refine ⟨List.mem_cons_of_mem m ihmem, ?_⟩
      intro x hx
      rcases List.mem_cons.mp hx with hxm | hx2
      · subst hxm
        intro hcon
        exact ihmax x' (List.mem_cons_self x' rest) (keyGt_trans hg hcon)
      · exact ihmax x hx2
    · rw [if_neg hg]
      obtain ⟨ihmem, ihmax⟩ := ih m
      refine ⟨?_, ?_⟩
      · rcases List.mem_cons.mp ihmem with h | h
        · exact List.mem_cons.mpr (Or.inl h)
        · exact List.mem_cons_of_mem m (List.mem_cons_of_mem x' h)
      · intro x hx
        rcases List.mem_cons.mp hx with hxm | hx2
        · subst hxm
          exact ihmax x (List.mem_cons_self x rest)
        · rcases List.mem_cons.mp hx2 with hxx | hx3
          · subst hxx
            intro hcon
            exact ihmax m (List.mem_cons_self m rest) (keyGt_of_not_gt hg hcon)
          · exact ihmax x (List.mem_cons_of_mem m hx3)

theorem pyMaxRows_spec (l : List MRow) (h : l ≠ []) :
    ∃ m ∈ l, pyMaxRows l = some m ∧
      ∀ x ∈ l, ¬ keyGt (mergeKey x) (mergeKey m) := by
  match l with
  | [] => exact absurd rfl h
  | m0 :: rest =>
    obtain ⟨hmem, hmax⟩ := foldlMax_spec mergeKey rest m0
    exact ⟨_, hmem, rfl, hmax⟩

/-! ## Claim 1 (survivor selection) -/

/-- C1 counterexample: two rows tying on title length, description
length and tags, with ids 1 and 2.  The claim (highest id as the final
tiebreaker) demands id 2; merge keeps id 1 because the scoring key
negates the id. -/
theorem claim1_counterexample :
    (merge_bookmarks c1db [1, 2] none false).1 = some 1 ∧
      (specSelectPrimary (fetchMergeRows c1db [1, 2]) [1, 2] none).map
          MRow.id = some 2 ∧
      (1 : Int) ≠ 2 := by
  refine ⟨by decide, by decide, by decide⟩

/-- C1 amended: when keepId is truthy, listed, and found among the
fetched rows it survives; otherwise the survivor is the fetched record
maximizing, in priority order, title length, then description length,
then having any tags, then the LOWEST id (the code negates the id, so
the oldest record, not the most recent one, wins the final tiebreak). -/
theorem claim1_amended (db : DB) (ids : List Int) (keep : Option Int) :
    (∀ k m, keep = some k → k ≠ 0 → ids.contains k →
      m ∈ fetchMergeRows db ids → m.id = k →
      (merge_bookmarks db ids keep false).1 = some k) ∧
    (((keep = none) ∨ ∃ k, keep = some k ∧ ¬ (k ≠ 0 ∧ ids.contains k)) →
      fetchMergeRows db ids ≠ [] →
      ∃ m ∈ fetchMergeRows db ids,
        (merge_bookmarks db ids keep false).1 = some m.id ∧
        ∀ m2 ∈ fetchMergeRows db ids,
          ¬ keyGt (mergeKey m2) (mergeKey m)) := by
  constructor
  · intro k m hkeep hk0 hkin hmem hid
    have hrows : fetchMergeRows db ids ≠ [] := by
      intro hnil
      rw [hnil] at hmem
      exact absurd hmem (List.not_mem_nil m)
    have hfind : ∃ y, (fetchMergeRows db ids).find? (fun r => r.id = k) = some y := by
      have : ((fetchMergeRows db ids).find? (fun r => r.id = k)).isSome := by
        rw [List.find?_isSome]
        exact ⟨m, hmem, by simp [hid]⟩
      exact Option.isSome_iff_exists.mp this
    obtain ⟨y, hy⟩ := hfind
    have hyid : y.id = k := by
      have := List.find?_some hy
      simpa using this
    unfold merge_bookmarks
    rw [if_neg (by simp), if_neg hrows]
    unfold selectPrimary
    rw [hkeep]
    dsimp only
    rw [if_pos (⟨hk0, hkin⟩ : k ≠ 0 ∧ ids.contains k = true), hy]
    simp [hyid]
  · intro hkeep hrows
    obtain ⟨m, hmem, hmax, hbound⟩ := pyMaxRows_spec _ hrows
    refine ⟨m, hmem, ?_, hbound⟩
    unfold merge_bookmarks
    rw [if_neg (by simp), if_neg hrows]
    unfold selectPrimary
    rcases hkeep with rfl | ⟨k, rfl, hnot⟩
    · dsimp only
      rw [hmax]
    · dsimp only
      rw [if_neg hnot, hmax]

/-- C1 witness: the keep branch at a concrete store, and the max branch
of the c1db instance. -/
theorem claim1_witness :
    (merge_bookmarks c1db [1, 2] (some 2) false).1 = some 2 ∧
      (merge_bookmarks c1db [1, 2] none false).1 = some 1 := by
  exact ⟨(claim1_amended c1db [1, 2] (some 2)).1 2
    ⟨2, "t".toList, "d".toList, 5, none⟩ rfl (by decide) (by decide)
    (by decide) rfl, by decide⟩

end Dedup

namespace Dedup

/-! ## Claims 2 and 10 (merge failure handling and atomicity) -/

/-- C2: a merge whose id list fetches zero records returns the failure
value None and leaves the store untouched; and every merge is atomic:
whatever statement of the transaction fails, the final state is either
exactly the initial state (with None returned, the transaction rolled
back) or exactly the fully merged state (with the survivor id
returned). -/
theorem claim2_group_not_found_and_atomic (db : DB) (ids : List Int)
    (keep : Option Int) (fault : Bool) :
    (fetchMergeRows db ids = [] → merge_bookmarks db ids keep fault = (none, db)) ∧
    (merge_bookmarks db ids keep fault = (none, db) ∨
      ∃ primary, selectPrimary (fetchMergeRows db ids) ids keep = some primary ∧
        merge_bookmarks db ids keep fault =
          (some primary.id, mergeApply db (fetchMergeRows db ids) primary)) := by
  constructor
  · intro h
    unfold merge_bookmarks
    by_cases hf : fault
    · rw [if_pos hf]
    · rw [if_neg hf, if_pos h]
  · unfold merge_bookmarks
    by_cases hf : fault
    · left
      rw [if_pos hf]
    · rw [if_neg hf]
      by_cases hrows : fetchMergeRows db ids = []
      · left
        rw [if_pos hrows]
      · rw [if_neg hrows]
        cases hsel : selectPrimary (fetchMergeRows db ids) ids keep with
        | none => left; rfl
        | some primary => right; exact ⟨primary, rfl, rfl⟩

/-- C2 witness: the empty-fetch branch at a concrete store and an
atomicity instance. -/
theorem claim2_witness :
    merge_bookmarks c1db [7] none false = (none, c1db) ∧
      (merge_bookmarks c1db [1, 2] none false = (none, c1db) ∨
        ∃ primary,
          selectPrimary (fetchMergeRows c1db [1, 2]) [1, 2] none = some primary ∧
          merge_bookmarks c1db [1, 2] none false =
            (some primary.id, mergeApply c1db (fetchMergeRows c1db [1, 2]) primary)) :=
  ⟨(claim2_group_not_found_and_atomic c1db [7] none false).1 (by decide),
   (claim2_group_not_found_and_atomic c1db [1, 2] none false).2⟩

/-- C10: merge never raises in the model (it is a total function into
Option); an injected store failure anywhere in the transaction yields
None with the state untouched, an id list that fetches nothing yields
None as well, and those two None results are identical, so the caller
cannot tell a vanished group from a store failure. -/
theorem claim10_none_conflates (db db2 : DB) (ids ids2 : List Int)
    (keep keep2 : Option Int) :
    merge_bookmarks db ids keep true = (none, db) ∧
    (fetchMergeRows db2 ids2 = [] →
      merge_bookmarks db2 ids2 keep2 false = (none, db2) ∧
      (merge_bookmarks db ids keep true).1 =
        (merge_bookmarks db2 ids2 keep2 false).1) := by
  have h1 : merge_bookmarks db ids keep true = (none, db) := by
    unfold merge_bookmarks
    rw [if_pos rfl]
  refine ⟨h1, fun h2 => ?_⟩
  have h3 : merge_bookmarks db2 ids2 keep2 false = (none, db2) := by
    unfold merge_bookmarks
    rw [if_neg (by simp), if_pos h2]
  rw [h1, h3]
  exact ⟨rfl, rfl⟩

/-- C10 witness at a concrete store. -/
theorem claim10_witness :
    merge_bookmarks c1db [1, 2] none true = (none, c1db) ∧
      merge_bookmarks c1db [7] none false = (none, c1db) :=
  ⟨(claim10_none_conflates c1db c1db [1, 2] [7] none none).1,
   ((claim10_none_conflates c1db c1db [1, 2] [7] none none).2 (by decide)).1⟩

/-! ## Claim 6 (different hosts score zero) -/

/-- C6: whenever the canonical forms of two URLs parse with different
netlocs, calculate_url_similarity returns exactly 0. -/
theorem claim6_different_hosts_zero (u1 u2 : Str) (p1 p2 : ParseResult)
    (h1 : urlparseE (normalize_url u1) = .ok p1)
    (h2 : urlparseE (normalize_url u2) = .ok p2)
    (hnet : p1.netloc ≠ p2.netloc) :
    calculate_url_similarity u1 u2 = 0 := by
  by_cases heq : normalize_url u1 = normalize_url u2
  · exfalso
    rw [heq, h2] at h1
    injection h1 with h
    exact hnet (by rw [h])
  · unfold calculate_url_similarity urlSimCore
    rw [if_neg heq, h1, h2]
    dsimp only
    rw [if_pos hnet]

/-- C6 witness: two hosts a.com and b.com. -/
theorem claim6_witness :
    calculate_url_similarity ("http://a.com/x").toList ("http://b.com/x").toList = 0 :=
  claim6_different_hosts_zero _ _
    ⟨"http".toList, "a.com".toList, "/x".toList, [], [], []⟩
    ⟨"http".toList, "b.com".toList, "/x".toList, [], [], []⟩
    (by decide) (by decide) (by decide)

/-! ## Claim 9 (root path collapse and trailing slash stripping) -/

/-- C9: a parsed path that is empty or consists only of slashes is
rebuilt as exactly the root path, so https x.com and its slashed form
share one canonical form; for other paths every trailing slash is
stripped, so a doubly slashed suffix also collapses. -/
theorem claim9_root_path (u : Str) (p : ParseResult)
    (hp : urlparseE (pyLower (pyStrip u)) = .ok p)
    (hs : ∀ c ∈ p.path, c = '/') :
    normalize_url u =
      urlunparse p.scheme p.netloc ['/'] p.params
        (pyJoin ['&'] ((filteredSortedQuery p.query).map rebuildItem)) [] ∧
    normalize_url ("https://x.com").toList = normalize_url ("https://x.com/").toList ∧
    normalize_url ("https://x.com/a//").toList = normalize_url ("https://x.com/a").toList := by
  refine ⟨?_, by decide, by decide⟩
  have hclean : cleanPath p.path = ['/'] := by
    have hdrop : p.path.reverse.dropWhile (fun c => (['/'] : List Char).contains c) = [] := by
      rw [List.dropWhile_eq_nil_iff]
      intro x hx
      simp [List.contains, hs x (List.mem_reverse.mp hx)]
    unfold cleanPath pyRstrip
    rw [hdrop]
    rfl
  unfold normalize_url
  dsimp only
  rw [hp]
  dsimp only
  rw [hclean]

/-- C9 witness: the URL https x.com with an all-slash (root) path. -/
theorem claim9_witness :
    normalize_url ("https://x.com/").toList =
      urlunparse ("https").toList ("x.com").toList ['/'] []
        (pyJoin ['&'] ((filteredSortedQuery []).map rebuildItem)) [] :=
  (claim9_root_path ("https://x.com/").toList
    ⟨"https".toList, "x.com".toList, ['/'], [], [], []⟩
    (by decide) (by decide)).1

end Dedup

namespace Dedup

/-! ## Order facts for Python string comparison -/

theorem strLt_iff : ∀ (a b : Str), strLt a b = true ↔ List.Lex (· < ·) a b
  | [], [] => by
    constructor
    · intro h
      simp [strLt] at h
    · intro h
      nomatch h
  | [], y :: ys => by
    constructor
    · intro _
      exact List.Lex.nil
    · intro _
      rfl
  | x :: xs, [] => by
    constructor
    · intro h
      simp [strLt] at h
    · intro h
      nomatch h
  | x :: xs, y :: ys => by
    simp only [strLt]
    by_cases hxy : x < y
    · simp only [hxy, if_pos]
      exact ⟨fun _ => List.Lex.rel hxy, fun _ => trivial⟩
    · by_cases hyx : y < x
      · simp only [hxy, hyx, if_neg, if_pos, not_false_iff]
        constructor
        · intro h
          simp at h
        · intro h
          cases h with
          | rel h2 => exact absurd h2 hxy
          | cons h2 => exact absurd hyx (lt_irrefl x)
      · have hxy2 : x = y := le_antisymm (not_lt.mp hyx) (not_lt.mp hxy)
        subst hxy2
        simp only [lt_irrefl, if_neg, not_false_iff]
        rw [strLt_iff xs ys]
        constructor
        · intro h
          exact List.Lex.cons h
        · intro h
          cases h with
          | rel h2 => exact absurd h2 (lt_irrefl x)
          | cons h2 => exact h2

/-- Python string < as the lexicographic order on code points. -/
theorem strLt_iff_lt (a b : Str) : strLt a b = true ↔ a < b := strLt_iff a b

theorem exactRowLe_iff (b1 b2 : BRow) :
    exactRowLe b1 b2 = true ↔
      (b1.url_hash < b2.url_hash ∨
        (b1.url_hash = b2.url_hash ∧ b1.created_at ≤ b2.created_at)) := by
  unfold exactRowLe
  rw [decide_eq_true_iff, strLt_iff_lt]

instance instIsTotalExactRowLe :
    IsTotal BRow (fun b1 b2 => exactRowLe b1 b2 = true) := by
  constructor
  intro a b
  rw [exactRowLe_iff, exactRowLe_iff]
  rcases lt_trichotomy a.url_hash b.url_hash with h | h | h
  · exact Or.inl (Or.inl h)
  · rcases le_total a.created_at b.created_at with hc | hc
    · exact Or.inl (Or.inr ⟨h, hc⟩)
    · exact Or.inr (Or.inr ⟨h.symm, hc⟩)
  · exact Or.inr (Or.inl h)

instance instIsTransExactRowLe :
    IsTrans BRow (fun b1 b2 => exactRowLe b1 b2 = true) := by
  constructor
  intro a b c hab hbc
  rw [exactRowLe_iff] at hab hbc ⊢
  rcases hab with h1 | ⟨h1, h1c⟩ <;> rcases hbc with h2 | ⟨h2, h2c⟩
  · exact Or.inl (lt_trans h1 h2)
  · exact Or.inl (h2 ▸ h1)
  · exact Or.inl (h1 ▸ h2)
  · exact Or.inr ⟨h1.trans h2, le_trans h1c h2c⟩

end Dedup

namespace Dedup

/-! ## Exact-pass grouping lemmas -/

/-- The hash component of the detail-query row order. -/
def hashLeP (b1 b2 : BRow) : Prop :=
  b1.url_hash < b2.url_hash ∨ b1.url_hash = b2.url_hash

theorem two_le_length_of_two_mem {α : Type} {a b : α} {l : List α}
    (ha : a ∈ l) (hb : b ∈ l) (hne : a ≠ b) : 2 ≤ l.length := by
  obtain ⟨s, t, rfl⟩ := List.append_of_mem ha
  have hb2 : b ∈ s ∨ b ∈ t := by
    rcases List.mem_append.mp hb with h | h
    · exact Or.inl h
    · rcases List.mem_cons.mp h with h2 | h2
      · exact absurd h2.symm hne
      · exact Or.inr h2
  have : 1 ≤ s.length ∨ 1 ≤ t.length := by
    rcases hb2 with h | h
    · exact Or.inl (List.length_pos.mpr (List.ne_nil_of_mem h))
    · exact Or.inr (List.length_pos.mpr (List.ne_nil_of_mem h))
  simp only [List.length_append, List.length_cons]
  omega

theorem groupScan_sound (l : List BRow) :
    ∀ (cur : List BRow),
      (∀ x ∈ cur, ∀ y ∈ cur, x.url_hash = y.url_hash) →
      ∀ g ∈ groupScan l cur,
        1 < g.length ∧ (∀ x ∈ g, ∀ y ∈ g, x.url_hash = y.url_hash) ∧
        ∀ x ∈ g, x ∈ cur ∨ x ∈ l := by
  induction l with
  | nil =>
    intro cur hcur g hg
    unfold groupScan at hg
    by_cases hlen : 1 < cur.length
    · rw [if_pos hlen] at hg
      rcases List.mem_singleton.mp hg with rfl
      exact ⟨hlen, hcur, fun x hx => Or.inl hx⟩
    · rw [if_neg hlen] at hg
      exact absurd hg (List.not_mem_nil g)
  | cons r rest ih =>
    intro cur hcur g hg
    unfold groupScan at hg
    cases cur with
    | nil =>
      obtain ⟨hlen, hsame, hmem⟩ := ih [r] (by
        intro x hx y hy
        rcases List.mem_singleton.mp hx with rfl
        rcases List.mem_singleton.mp hy with rfl
        rfl) g hg
      refine ⟨hlen, hsame, fun x hx => Or.inr ?_⟩
      rcases hmem x hx with h | h
      · rcases List.mem_singleton.mp h with rfl
        exact List.mem_cons_self _ _
      · exact List.mem_cons_of_mem _ h
    | cons c cur2 =>
      dsimp only at hg
      by_cases hne : c.url_hash ≠ r.url_hash
      · rw [if_pos hne] at hg
        rcases List.mem_append.mp hg with hg1 | hg2
        · by_cases hlen : 1 < (c :: cur2).length
          · rw [if_pos hlen] at hg1
            rcases List.mem_singleton.mp hg1 with rfl
            exact ⟨hlen, hcur, fun x hx => Or.inl hx⟩
          · rw [if_neg hlen] at hg1
            exact absurd hg1 (List.not_mem_nil g)
        · obtain ⟨hlen, hsame, hmem⟩ := ih [r] (by
            intro x hx y hy
            rcases List.mem_singleton.mp hx with rfl
            rcases List.mem_singleton.mp hy with rfl
            rfl) g hg2
          refine ⟨hlen, hsame, fun x hx => Or.inr ?_⟩
          rcases hmem x hx with h | h
          · rcases List.mem_singleton.mp h with rfl
            exact List.mem_cons_self _ _
          · exact List.mem_cons_of_mem _ h
      · rw [if_neg hne] at hg
        push_neg at hne
        obtain ⟨hlen, hsame, hmem⟩ := ih (c :: cur2 ++ [r]) (by
          intro x hx y hy
          have hashof : ∀ z ∈ c :: cur2 ++ [r], z.url_hash = c.url_hash := by
            intro z hz
            rcases List.mem_append.mp hz with h | h
            · exact hcur z h c (List.mem_cons_self _ _)
            · rcases List.mem_singleton.mp h with rfl
              exact hne.symm
          rw [hashof x hx, hashof y hy]) g hg
        refine ⟨hlen, hsame, fun x hx => ?_⟩
        rcases hmem x hx with h | h
        · rcases List.mem_append.mp h with h2 | h2
          · exact Or.inl h2
          · rcases List.mem_singleton.mp h2 with rfl
            exact Or.inr (List.mem_cons_self _ _)
        · exact Or.inr (List.mem_cons_of_mem _ h)

end Dedup

namespace Dedup

theorem groupScan_complete :
    ∀ (l cur : List BRow) (hh : Str),
      (∀ x ∈ cur, x.url_hash = hh) →
      List.Pairwise hashLeP (cur ++ l) →
      ∀ r1 r2, r1 ∈ cur ++ l → r2 ∈ cur ++ l → r1.url_hash = r2.url_hash →
        2 ≤ ((cur ++ l).filter fun x => x.url_hash = r1.url_hash).length →
        ∃ g ∈ groupScan l cur, r1 ∈ g ∧ r2 ∈ g := by
  intro l
  induction l with
  | nil =>
    intro cur hh hcur hpair r1 r2 hr1 hr2 heq hcount
    rw [List.append_nil] at hr1 hr2 hcount
    have hlen : 1 < cur.length := by
      have := List.length_filter_le (fun x => x.url_hash = r1.url_hash) cur
      omega
    refine ⟨cur, ?_, hr1, hr2⟩
    unfold groupScan
    rw [if_pos hlen]
    exact List.mem_singleton.mpr rfl
  | cons r rest ih =>
    intro cur hh hcur hpair r1 r2 hr1 hr2 heq hcount
    cases cur with
    | nil =>
      simp only [List.nil_append] at hr1 hr2 hcount hpair
      have huni : ∀ x ∈ [r], x.url_hash = r.url_hash := by
        intro x hx
        rcases List.mem_singleton.mp hx with rfl
        rfl
      exact ih [r] r.url_hash huni (by simpa using hpair) r1 r2
        (by simpa using hr1) (by simpa using hr2) heq (by simpa using hcount)
    | cons c cur2 =>
      have hchash : c.url_hash = hh := hcur c (List.mem_cons_self _ _)
      by_cases hne : c.url_hash ≠ r.url_hash
      · -- the accumulated group is emitted, scanning restarts at r
        have hpair2 : List.Pairwise hashLeP (r :: rest) :=
          List.Pairwise.sublist (List.sublist_append_right (c :: cur2) (r :: rest)) hpair
        have hcr : hashLeP c r := by
          have := (List.pairwise_cons.mp hpair).1 r
          exact this (by
            apply List.mem_append.mpr
            exact Or.inr (List.mem_cons_self _ _))
        have hlt : hh < r.url_hash := by
          rcases hcr with h | h
          · rwa [hchash] at h
          · exact absurd (hchash ▸ h) hne
        have hnoth : ∀ y ∈ r :: rest, y.url_hash ≠ hh := by
          intro y hy hyh
          rcases List.mem_cons.mp hy with rfl | hy2
          · exact absurd (hyh ▸ hlt) (lt_irrefl _)
          · have hry : hashLeP r y := (List.pairwise_cons.mp hpair2).1 y hy2
            rcases hry with h | h
            · rw [hyh] at h
              exact absurd (lt_trans hlt h) (lt_irrefl _)
            · rw [h, hyh] at hlt
              exact absurd hlt (lt_irrefl _)
        rcases List.mem_append.mp hr1 with h1cur | h1l
        · -- r1 in the accumulated group: its hash is hh, so is r2
          have hH : r1.url_hash = hh := hcur r1 h1cur
          have h2cur : r2 ∈ c :: cur2 := by
            rcases List.mem_append.mp hr2 with h | h
            · exact h
            · exact absurd (heq ▸ hH) (hnoth r2 h)
          have hfnil : ((r :: rest).filter fun x => x.url_hash = r1.url_hash) = [] := by
            rw [List.filter_eq_nil_iff]
            intro a ha
            simp only [decide_eq_true_eq]
            intro hah
            exact hnoth a ha (hH ▸ hah)
          have hflen : 2 ≤ ((c :: cur2).filter fun x => x.url_hash = r1.url_hash).length := by
            rw [List.filter_append, hfnil, List.append_nil] at hcount
            exact hcount
          have hlen : 1 < (c :: cur2).length := by
            have := List.length_filter_le (fun x => x.url_hash = r1.url_hash) (c :: cur2)
            omega
          refine ⟨c :: cur2, ?_, h1cur, h2cur⟩
          show _ ∈ groupScan (r :: rest) (c :: cur2)
          unfold groupScan
          dsimp only
          rw [if_pos hne, if_pos hlen]
          exact List.mem_append.mpr (Or.inl (List.mem_singleton.mpr rfl))
        · -- r1 after the break: everything relevant lives in r :: rest
          have hH : r1.url_hash ≠ hh := hnoth r1 h1l
          have h2l : r2 ∈ r :: rest := by
            rcases List.mem_append.mp hr2 with h | h
            · exact absurd (heq ▸ hcur r2 h) hH
            · exact h
          have hfnil : ((c :: cur2).filter fun x => x.url_hash = r1.url_hash) = [] := by
            rw [List.filter_eq_nil_iff]
            intro a ha
            simp only [decide_eq_true_eq]
            intro hah
            exact hH (hah ▸ hcur a ha)
          have hcount2 : 2 ≤ (([r] ++ rest).filter fun x => x.url_hash = r1.url_hash).length := by
            rw [List.filter_append, hfnil, List.nil_append] at hcount
            simpa using hcount
          have huni : ∀ x ∈ [r], x.url_hash = r.url_hash := by
            intro x hx
            rcases List.mem_singleton.mp hx with rfl
            rfl
          obtain ⟨g, hgmem, hg1, hg2⟩ := ih [r] r.url_hash huni
            (by simpa using hpair2) r1 r2 (by simpa using h1l) (by simpa using h2l)
            heq hcount2
          refine ⟨g, ?_, hg1, hg2⟩
          show _ ∈ groupScan (r :: rest) (c :: cur2)
          unfold groupScan
          dsimp only
          rw [if_pos hne]
          exact List.mem_append.mpr (Or.inr hgmem)
      · -- same hash: r joins the accumulated group
        have huni : ∀ x ∈ (c :: cur2) ++ [r], x.url_hash = hh := by
          intro x hx
          rcases List.mem_append.mp hx with h | h
          · exact hcur x h
          · rcases List.mem_singleton.mp h with rfl
            rw [← not_ne_iff.mp hne]
            exact hchash
        have hassoc : ((c :: cur2) ++ [r]) ++ rest = (c :: cur2) ++ (r :: rest) := by
          rw [List.append_assoc]
          rfl
        obtain ⟨g, hgmem, hg1, hg2⟩ := ih ((c :: cur2) ++ [r]) hh huni
          (by rw [hassoc]; exact hpair) r1 r2 (by rw [hassoc]; exact hr1)
          (by rw [hassoc]; exact hr2) heq (by rw [hassoc]; exact hcount)
        refine ⟨g, ?_, hg1, hg2⟩
        show _ ∈ groupScan (r :: rest) (c :: cur2)
        unfold groupScan
        dsimp only
        rw [if_neg hne]
        exact hgmem

end Dedup

namespace Dedup

/-! ## Claim 3 (normalized_url_key and the exact pass) -/

/-- C3 counterexample: the stored key and the Normalizer disagree in both
directions.  The two URLs differing by a tracking parameter share one
canonical form but feed different strings to md5 (the 21- and 14-character
ASCII strings below, whose md5 digests differ), so they receive different
keys; the two URLs differing by a trailing slash inside the query feed md5
one identical string yet have different canonical forms. -/
theorem claim3_counterexample :
    (normalize_url ("https://x.com/a?utm_source=y").toList =
        normalize_url ("https://x.com/a").toList ∧
      url_hash_input ("https://x.com/a?utm_source=y").toList ≠
        url_hash_input ("https://x.com/a").toList) ∧
    (url_hash_input ("http://x.com/a?x=1/").toList =
        url_hash_input ("http://x.com/a?x=1").toList ∧
      normalize_url ("http://x.com/a?x=1/").toList ≠
        normalize_url ("http://x.com/a?x=1").toList) := by
  refine ⟨⟨by decide, by decide⟩, ⟨by decide, by decide⟩⟩

/-- C3 amended: the stored key is a deterministic digest of
url.rstrip(slash).split(hashmark)[0].lower() (not of the Normalizer's
canonical form), so two URLs with one simplified form receive one key;
and the exact pass groups precisely the active records sharing a stored
url_hash: every emitted group has at least two members, all active rows
of the table sharing one url_hash value, and any two distinct active
rows with equal url_hash land in a common group. -/
theorem claim3_amended :
    (∀ (md5hex : Str → Str) (u v : Str), url_hash_input u = url_hash_input v →
      generate_url_hash md5hex u = generate_url_hash md5hex v) ∧
    (∀ (table : List BRow), ∀ g ∈ find_exact_duplicates table,
      1 < g.length ∧
      (∀ x ∈ g, x ∈ table ∧ x.status = ("active").toList) ∧
      (∀ x ∈ g, ∀ y ∈ g, x.url_hash = y.url_hash)) ∧
    (∀ (table : List BRow) (r1 r2 : BRow), r1 ∈ table → r2 ∈ table →
      r1.status = ("active").toList → r2.status = ("active").toList →
      r1.url_hash = r2.url_hash → r1 ≠ r2 →
      ∃ g ∈ find_exact_duplicates table, r1 ∈ g ∧ r2 ∈ g) := by
  refine ⟨?_, ?_, ?_⟩
  · intro md5hex u v h
    unfold generate_url_hash
    rw [h]
  · intro table g hg
    have hsound := groupScan_sound
      ((exactDupRows table).insertionSort fun b1 b2 => exactRowLe b1 b2) []
      (by intro x hx; exact absurd hx (List.not_mem_nil x)) g hg
    obtain ⟨hlen, hsame, hmem⟩ := hsound
    refine ⟨hlen, ?_, hsame⟩
    intro x hx
    rcases hmem x hx with h | h
    · exact absurd h (List.not_mem_nil x)
    · have hx2 : x ∈ exactDupRows table := (List.mem_insertionSort _).mp h
      have hx3 : x ∈ exactActive table := (List.mem_filter.mp hx2).1
      obtain ⟨hxt, hxs⟩ := List.mem_filter.mp hx3
      exact ⟨hxt, by simpa using hxs⟩
  · intro table r1 r2 h1t h2t h1s h2s heq hne
    have h1a : r1 ∈ exactActive table :=
      List.mem_filter.mpr ⟨h1t, by simp [h1s]⟩
    have h2a : r2 ∈ exactActive table :=
      List.mem_filter.mpr ⟨h2t, by simp [h2s]⟩
    have hcount : ∀ z ∈ [r1, r2], z ∈ (exactActive table).filter
        fun c => c.url_hash = r1.url_hash := by
      intro z hz
      rcases List.mem_cons.mp hz with rfl | hz2
      · exact List.mem_filter.mpr ⟨h1a, by simp⟩
      · rcases List.mem_singleton.mp hz2 with rfl
        exact List.mem_filter.mpr ⟨h2a, by simp [heq]⟩
    have h1d : r1 ∈ exactDupRows table := by
      apply List.mem_filter.mpr
      refine ⟨h1a, ?_⟩
      simp only [decide_eq_true_eq]
      have := two_le_length_of_two_mem (hcount r1 (by simp)) (hcount r2 (by simp)) hne
      omega
    have h2d : r2 ∈ exactDupRows table := by
      apply List.mem_filter.mpr
      refine ⟨h2a, ?_⟩
      have hpred : ((exactActive table).filter fun c => c.url_hash = r2.url_hash) =
          (exactActive table).filter fun c => c.url_hash = r1.url_hash := by
        rw [heq]
      simp only [decide_eq_true_eq]
      rw [show r2.url_hash = r1.url_hash from heq.symm ▸ rfl]
      have := two_le_length_of_two_mem (hcount r1 (by simp)) (hcount r2 (by simp)) hne
      omega
    have h1r : r1 ∈ (exactDupRows table).insertionSort
        fun b1 b2 => exactRowLe b1 b2 := (List.mem_insertionSort _).mpr h1d
    have h2r : r2 ∈ (exactDupRows table).insertionSort
        fun b1 b2 => exactRowLe b1 b2 := (List.mem_insertionSort _).mpr h2d
    have hpair : List.Pairwise hashLeP
        ((exactDupRows table).insertionSort fun b1 b2 => exactRowLe b1 b2) := by
      have hsorted := List.sorted_insertionSort
        (fun b1 b2 => exactRowLe b1 b2 = true) (exactDupRows table)
      apply List.Pairwise.imp ?_ hsorted
      intro a b hab
      rcases (exactRowLe_iff a b).mp hab with h | ⟨h, _⟩
      · exact Or.inl h
      · exact Or.inr h
    have hflt : 2 ≤ (((exactDupRows table).insertionSort
        (fun b1 b2 => exactRowLe b1 b2)).filter
          fun x => x.url_hash = r1.url_hash).length := by
      apply two_le_length_of_two_mem
          (List.mem_filter.mpr ⟨h1r, by simp⟩)
          (List.mem_filter.mpr ⟨h2r, by simp [heq]⟩) hne
    have := groupScan_complete
      ((exactDupRows table).insertionSort fun b1 b2 => exactRowLe b1 b2) [] []
      (by intro x hx; exact absurd hx (List.not_mem_nil x))
      (by simpa using hpair) r1 r2 (by simpa using h1r) (by simpa using h2r)
      heq (by simpa using hflt)
    exact this

/-- C3 witness: two active rows sharing a url_hash value end up grouped
together, and determinism at a concrete digest function and URL pair. -/
theorem claim3_witness :
    (∃ g ∈ find_exact_duplicates
        [⟨1, [], [], [], [], 1, "active".toList, "h1".toList⟩,
         ⟨2, [], [], [], [], 2, "active".toList, "h1".toList⟩],
      (⟨1, [], [], [], [], 1, "active".toList, "h1".toList⟩ : BRow) ∈ g ∧
      (⟨2, [], [], [], [], 2, "active".toList, "h1".toList⟩ : BRow) ∈ g) ∧
    generate_url_hash id ("http://x.com/a?x=1/").toList =
      generate_url_hash id ("http://x.com/a?x=1").toList :=
  ⟨claim3_amended.2.2 _ _ _ (by decide) (by decide) (by decide) (by decide)
      (by decide) (by decide),
   claim3_amended.1 id _ _ (by decide)⟩

end Dedup

namespace Dedup

/-! ## Bounds for the difflib model

Validity of the block returned by find_longest_match: a non-empty best
block lies inside the ranges, which yields the classical bound
matches ≤ min (ahi - alo) (bhi - blo) and with it ratio ≤ 1. -/

/-- A non-empty valid block within the ranges. -/
def blockOK (alo ahi blo bhi : Nat) (t : Nat × Nat × Nat) : Prop :=
  1 ≤ t.2.2 ∧ alo ≤ t.1 ∧ t.1 + t.2.2 ≤ ahi ∧ blo ≤ t.2.1 ∧ t.2.1 + t.2.2 ≤ bhi

/-- The j2len rows produced while scanning up to row i. -/
def rowOK (alo blo bhi i : Nat) (row : List Nat) : Prop :=
  ∀ j, row.getD j 0 ≠ 0 →
    blo ≤ j ∧ j < bhi ∧ row.getD j 0 + blo ≤ j + 1 ∧ row.getD j 0 + alo ≤ i

theorem mapRange_getD (n j : Nat) (f : Nat → Nat) :
    ((List.range n).map f).getD j 0 = if j < n then f j else 0 := by
  by_cases h : j < n
  · rw [if_pos h]
    rw [List.getD_eq_getElem?_getD]
    rw [List.getElem?_map, List.getElem?_range h]
    rfl
  · rw [if_neg h]
    rw [List.getD_eq_getElem?_getD]
    have : ((List.range n).map f).length ≤ j := by
      simpa using Nat.le_of_not_lt h
    rw [List.getElem?_eq_none this]
    rfl

theorem flmNewRow_ok (a b : Array Char) (alo blo bhi i : Nat) (prev : List Nat)
    (halo : alo ≤ i) (hprev : rowOK alo blo bhi i prev) :
    rowOK alo blo bhi (i + 1) (flmNewRow a b i blo bhi prev) := by
  intro j hj
  unfold flmNewRow at hj ⊢
  rw [mapRange_getD] at hj ⊢
  by_cases hjn : j < b.size
  · rw [if_pos hjn] at hj ⊢
    by_cases hcond : a.getD i ' ' = b.getD j ' ' ∧ blo ≤ j ∧ j < bhi
    · rw [if_pos hcond] at hj ⊢
      obtain ⟨-, hblo, hbhi⟩ := hcond
      refine ⟨hblo, hbhi, ?_, ?_⟩
      · by_cases hj0 : j = 0
        · subst hj0
          simp only [if_true, reduceIte]
          omega
        · rw [if_neg hj0]
          by_cases hp : prev.getD (j - 1) 0 = 0
          · rw [hp]
            omega
          · have := (hprev (j - 1) hp).2.2.1
            omega
      · by_cases hj0 : j = 0
        · subst hj0
          simp only [if_true, reduceIte]
          omega
        · rw [if_neg hj0]
          by_cases hp : prev.getD (j - 1) 0 = 0
          · rw [hp]
            omega
          · have := (hprev (j - 1) hp).2.2.2
            omega
    · rw [if_neg hcond] at hj
      exact absurd rfl hj
  · rw [if_neg hjn] at hj
    exact absurd rfl hj

theorem flmScanRow_ok (alo blo bhi i : Nat) (row : List Nat)
    (best : Nat × Nat × Nat)
    (hrow : rowOK alo blo bhi (i + 1) row)
    (hbest : best = (alo, blo, 0) ∨ blockOK alo (i + 1) blo bhi best) :
    flmScanRow i row best = (alo, blo, 0) ∨
      blockOK alo (i + 1) blo bhi (flmScanRow i row best) := by
  unfold flmScanRow
  have main : ∀ (js : List Nat) (bst : Nat × Nat × Nat),
      bst = (alo, blo, 0) ∨ blockOK alo (i + 1) blo bhi bst →
      (js.foldl (fun bst j =>
        let k := row.getD j 0
        if k > bst.2.2 then (i + 1 - k, j + 1 - k, k) else bst) bst) = (alo, blo, 0) ∨
      blockOK alo (i + 1) blo bhi (js.foldl (fun bst j =>
        let k := row.getD j 0
        if k > bst.2.2 then (i + 1 - k, j + 1 - k, k) else bst) bst) := by
    intro js
    induction js with
    | nil => intro bst h; exact h
    | cons j js2 ih =>
      intro bst h
      simp only [List.foldl_cons]
      apply ih
      by_cases hk : row.getD j 0 > bst.2.2
      · simp only [hk, if_pos]
        right
        have hne : row.getD j 0 ≠ 0 := by omega
        obtain ⟨hblo, hbhi, hjb, hia⟩ := hrow j hne
        unfold blockOK
        dsimp only
        refine ⟨by omega, by omega, by omega, by omega, by omega⟩
      · simp only [hk, if_neg, if_false]
        exact h
  exact main _ best hbest

theorem flmLoop_ok (a b : Array Char) (alo blo bhi : Nat) :
    ∀ (n i0 : Nat) (st : List Nat × (Nat × Nat × Nat)), alo ≤ i0 →
      rowOK alo blo bhi i0 st.1 →
      (st.2 = (alo, blo, 0) ∨ blockOK alo i0 blo bhi st.2) →
      ((List.range' i0 n).foldl (fun st i =>
          let row := flmNewRow a b i blo bhi st.1
          (row, flmScanRow i row st.2)) st).2 = (alo, blo, 0) ∨
        blockOK alo (i0 + n) blo bhi
          ((List.range' i0 n).foldl (fun st i =>
            let row := flmNewRow a b i blo bhi st.1
            (row, flmScanRow i row st.2)) st).2 := by
  intro n
  induction n with
  | zero =>
    intro i0 st _ _ hbest
    simpa using hbest
  | succ n2 ih =>
    intro i0 st halo hrow hbest
    rw [List.range'_succ]
    simp only [List.foldl_cons]
    have hrow2 := flmNewRow_ok a b alo blo bhi i0 st.1 halo hrow
    have hbest1 : st.2 = (alo, blo, 0) ∨ blockOK alo (i0 + 1) blo bhi st.2 := by
      rcases hbest with h | h
      · exact Or.inl h
      · right
        obtain ⟨h1, h2, h3, h4, h5⟩ := h
        exact ⟨h1, h2, by omega, h4, h5⟩
    have hbest2 := flmScanRow_ok alo blo bhi i0
      (flmNewRow a b i0 blo bhi st.1) st.2 hrow2 hbest1
    have hfin := ih (i0 + 1)
      (flmNewRow a b i0 blo bhi st.1,
        flmScanRow i0 (flmNewRow a b i0 blo bhi st.1) st.2)
      (by omega) hrow2 hbest2
    have heq : i0 + 1 + n2 = i0 + (n2 + 1) := by omega
    rw [heq] at hfin
    exact hfin

end Dedup

namespace Dedup

theorem extendLeft_ok (a b : Array Char) (alo blo ahi bhi : Nat) :
    ∀ (fuel : Nat) (best : Nat × Nat × Nat),
      (best = (alo, blo, 0) ∨ blockOK alo ahi blo bhi best) →
      (extendLeft a b alo blo fuel best = (alo, blo, 0) ∨
        blockOK alo ahi blo bhi (extendLeft a b alo blo fuel best)) := by
  intro fuel
  induction fuel with
  | zero => intro best h; exact h
  | succ f ih =>
    intro best h
    obtain ⟨bi, bj, bk⟩ := best
    unfold extendLeft
    by_cases hc : bi > alo ∧ bj > blo ∧ a.getD (bi - 1) ' ' = b.getD (bj - 1) '!'
    · rw [if_pos hc]
      apply ih
      rcases h with h0 | hv
      · exfalso
        have : bi = alo := by
          have := congrArg Prod.fst h0
          simpa using this
        omega
      · right
        obtain ⟨h1, h2, h3, h4, h5⟩ := hv
        dsimp only at h1 h2 h3 h4 h5 ⊢
        unfold blockOK
        dsimp only
        refine ⟨by omega, by omega, by omega, by omega, by omega⟩
    · rw [if_neg hc]
      exact h

theorem extendRight_ok (a b : Array Char) (ahi bhi besti bestj : Nat) :
    ∀ (fuel s : Nat),
      (s ≠ 0 → besti + s ≤ ahi ∧ bestj + s ≤ bhi) →
      (extendRight a b ahi bhi besti bestj fuel s ≠ 0 →
        besti + extendRight a b ahi bhi besti bestj fuel s ≤ ahi ∧
        bestj + extendRight a b ahi bhi besti bestj fuel s ≤ bhi) := by
  intro fuel
  induction fuel with
  | zero => intro s h; exact h
  | succ f ih =>
    intro s h
    unfold extendRight
    by_cases hc : besti + s < ahi ∧ bestj + s < bhi ∧
        a.getD (besti + s) ' ' = b.getD (bestj + s) '!'
    · rw [if_pos hc]
      apply ih
      intro _
      omega
    · rw [if_neg hc]
      exact h

theorem findLongestMatch_eq (a b : Array Char) (alo ahi blo bhi : Nat) :
    findLongestMatch a b alo ahi blo bhi =
      ((extendLeft a b alo blo (flmLoop a b alo ahi blo bhi).1
          (flmLoop a b alo ahi blo bhi)).1,
       (extendLeft a b alo blo (flmLoop a b alo ahi blo bhi).1
          (flmLoop a b alo ahi blo bhi)).2.1,
       extendRight a b ahi bhi
         (extendLeft a b alo blo (flmLoop a b alo ahi blo bhi).1
            (flmLoop a b alo ahi blo bhi)).1
         (extendLeft a b alo blo (flmLoop a b alo ahi blo bhi).1
            (flmLoop a b alo ahi blo bhi)).2.1
         ahi
         (extendLeft a b alo blo (flmLoop a b alo ahi blo bhi).1
            (flmLoop a b alo ahi blo bhi)).2.2) := rfl

/-- The block returned by find_longest_match, when non-empty, lies inside
the requested ranges. -/
theorem findLongestMatch_valid (a b : Array Char) (alo ahi blo bhi : Nat) :
    (findLongestMatch a b alo ahi blo bhi).2.2 ≠ 0 →
    blockOK alo ahi blo bhi (findLongestMatch a b alo ahi blo bhi) := by
  intro hk
  rw [findLongestMatch_eq] at hk ⊢
  have hloop : flmLoop a b alo ahi blo bhi = (alo, blo, 0) ∨
      blockOK alo ahi blo bhi (flmLoop a b alo ahi blo bhi) := by
    unfold flmLoop
    by_cases hrange : alo ≤ ahi
    · have := flmLoop_ok a b alo blo bhi (ahi - alo) alo
        (List.replicate b.size 0, (alo, blo, 0)) (le_refl alo)
        (by
          intro j hj
          exfalso
          apply hj
          rw [List.getD_eq_getElem?_getD]
          rcases Nat.lt_or_ge j b.size with h | h
          · rw [List.getElem?_replicate]
            simp [h]
          · rw [List.getElem?_eq_none (by simpa using h)]
            rfl)
        (Or.inl rfl)
      have heq : alo + (ahi - alo) = ahi := by omega
      rw [heq] at this
      exact this
    · have hz : ahi - alo = 0 := by omega
      rw [hz]
      exact Or.inl rfl
  generalize hL : flmLoop a b alo ahi blo bhi = L at hk hloop ⊢
  have hleft := extendLeft_ok a b alo blo ahi bhi L.1 L hloop
  generalize hE : extendLeft a b alo blo L.1 L = E at hk hleft ⊢
  have hstart : E.2.2 ≠ 0 → E.1 + E.2.2 ≤ ahi ∧ E.2.1 + E.2.2 ≤ bhi := by
    intro h
    rcases hleft with h0 | hv
    · exfalso
      rw [h0] at h
      exact h rfl
    · exact ⟨hv.2.2.1, hv.2.2.2.2⟩
  have hr2 := extendRight_ok a b ahi bhi E.1 E.2.1 ahi E.2.2 hstart
    (by simpa using hk)
  have hfirst : alo ≤ E.1 ∧ blo ≤ E.2.1 := by
    rcases hleft with h0 | hv
    · rw [h0]
      exact ⟨le_refl _, le_refl _⟩
    · exact ⟨hv.2.1, hv.2.2.2.1⟩
  have hk2 : extendRight a b ahi bhi E.1 E.2.1 ahi E.2.2 ≠ 0 := by
    simpa using hk
  unfold blockOK
  dsimp only
  exact ⟨by omega, hfirst.1, hr2.1, hfirst.2, hr2.2⟩

/-- The total matched size is at most the length of either range. -/
theorem matchTotal_le (a b : Array Char) :
    ∀ (fuel alo ahi blo bhi : Nat),
      matchTotal a b fuel alo ahi blo bhi ≤ min (ahi - alo) (bhi - blo) := by
  intro fuel
  induction fuel with
  | zero =>
    intro alo ahi blo bhi
    simp [matchTotal]
  | succ f ih =>
    intro alo ahi blo bhi
    unfold matchTotal
    by_cases hk : (findLongestMatch a b alo ahi blo bhi).2.2 = 0
    · rw [if_pos hk]
      omega
    · rw [if_neg hk]
      obtain ⟨h1, h2, h3, h4, h5⟩ := findLongestMatch_valid a b alo ahi blo bhi hk
      have hl := ih alo (findLongestMatch a b alo ahi blo bhi).1 blo
        (findLongestMatch a b alo ahi blo bhi).2.1
      have hr := ih ((findLongestMatch a b alo ahi blo bhi).1 +
          (findLongestMatch a b alo ahi blo bhi).2.2) ahi
        ((findLongestMatch a b alo ahi blo bhi).2.1 +
          (findLongestMatch a b alo ahi blo bhi).2.2) bhi
      by_cases hc1 : alo < (findLongestMatch a b alo ahi blo bhi).1 ∧
          blo < (findLongestMatch a b alo ahi blo bhi).2.1
      · rw [if_pos hc1]
        by_cases hc2 : (findLongestMatch a b alo ahi blo bhi).1 +
            (findLongestMatch a b alo ahi blo bhi).2.2 < ahi ∧
            (findLongestMatch a b alo ahi blo bhi).2.1 +
            (findLongestMatch a b alo ahi blo bhi).2.2 < bhi
        · rw [if_pos hc2]
          omega
        · rw [if_neg hc2]
          omega
      · rw [if_neg hc1]
        by_cases hc2 : (findLongestMatch a b alo ahi blo bhi).1 +
            (findLongestMatch a b alo ahi blo bhi).2.2 < ahi ∧
            (findLongestMatch a b alo ahi blo bhi).2.1 +
            (findLongestMatch a b alo ahi blo bhi).2.2 < bhi
        · rw [if_pos hc2]
          omega
        · rw [if_neg hc2]
          omega

/-- SequenceMatcher matches at most min (len a) (len b) elements. -/
theorem smMatches_le (s1 s2 : Str) : smMatches s1 s2 ≤ min s1.length s2.length := by
  unfold smMatches
  have := matchTotal_le s1.toArray s2.toArray
    (s1.length + s2.length + 1) 0 s1.length 0 s2.length
  simpa using this

theorem difflibRatio_bounds (s1 s2 : Str) :
    0 ≤ difflibRatio s1 s2 ∧ difflibRatio s1 s2 ≤ 1 := by
  unfold difflibRatio
  rcases Nat.eq_zero_or_pos (s1.length + s2.length) with hz | hp
  · have h1 : s1.length = 0 := by omega
    have h2 : s2.length = 0 := by omega
    rw [h1, h2]
    norm_num
  · have hm := smMatches_le s1 s2
    have hden : (0 : ℚ) < (s1.length : ℚ) + (s2.length : ℚ) := by
      have : (0 : ℚ) < ((s1.length + s2.length : Nat) : ℚ) := by
        exact_mod_cast hp
      push_cast at this
      exact this
    constructor
    · apply div_nonneg _ (le_of_lt hden)
      positivity
    · rw [div_le_one hden]
      have h2m : (2 : ℚ) * (smMatches s1 s2 : ℚ) ≤
          ((s1.length : ℚ) + (s2.length : ℚ)) := by
        have : 2 * smMatches s1 s2 ≤ s1.length + s2.length := by omega
        exact_mod_cast this
      exact h2m

end Dedup

namespace Dedup

/-! ## Similarity scorer bounds and claim 5 -/

theorem jaccardQ_bounds {α : Type} [DecidableEq α] (s t : Finset α)
    (hne : s.Nonempty ∨ t.Nonempty) :
    0 ≤ ((s ∩ t).card : ℚ) / ((s ∪ t).card : ℚ) ∧
      ((s ∩ t).card : ℚ) / ((s ∪ t).card : ℚ) ≤ 1 := by
  have hsub : s ∩ t ⊆ s ∪ t :=
    Finset.Subset.trans Finset.inter_subset_left Finset.subset_union_left
  have hcard := Finset.card_le_card hsub
  have hupos : 0 < (s ∪ t).card := by
    rcases hne with h | h
    · exact Finset.card_pos.mpr (h.mono Finset.subset_union_left)
    · exact Finset.card_pos.mpr (h.mono Finset.subset_union_right)
  have hposQ : (0 : ℚ) < ((s ∪ t).card : ℚ) := by exact_mod_cast hupos
  constructor
  · positivity
  · rw [div_le_one hposQ]
    exact_mod_cast hcard

theorem fast_string_similarity_bounds (s1 s2 : Str) :
    0 ≤ fast_string_similarity s1 s2 ∧ fast_string_similarity s1 s2 ≤ 1 := by
  unfold fast_string_similarity
  by_cases h1 : s1 = [] ∧ s2 = []
  · rw [if_pos h1]
    norm_num
  · rw [if_neg h1]
    by_cases h2 : s1 = [] ∨ s2 = []
    · rw [if_pos h2]
      norm_num
    · rw [if_neg h2]
      by_cases h3 : s1 = s2
      · rw [if_pos h3]
        norm_num
      · rw [if_neg h3]
        by_cases h4 : s1.length > 100 ∨ s2.length > 100
        · rw [if_pos h4]
          by_cases h5 : (bigrams s1).toFinset = ∅ ∧ (bigrams s2).toFinset = ∅
          · rw [if_pos h5]
            norm_num
          · rw [if_neg h5]
            by_cases h6 : (bigrams s1).toFinset = ∅ ∨ (bigrams s2).toFinset = ∅
            · rw [if_pos h6]
              norm_num
            · rw [if_neg h6]
              push_neg at h6
              have hne : ((bigrams s1).toFinset).Nonempty ∨
                  ((bigrams s2).toFinset).Nonempty :=
                Or.inl (Finset.nonempty_iff_ne_empty.mpr h6.1)
              have hj := jaccardQ_bounds (bigrams s1).toFinset (bigrams s2).toFinset hne
              by_cases h7 : ((bigrams s1).toFinset ∪ (bigrams s2).toFinset).card > 0
              · rw [if_pos h7]
                exact hj
              · rw [if_neg h7]
                norm_num
        · rw [if_neg h4]
          exact difflibRatio_bounds s1 s2

theorem calculate_title_similarity_bounds (t1 t2 : Str) :
    0 ≤ calculate_title_similarity t1 t2 ∧
      calculate_title_similarity t1 t2 ≤ 1 := by
  unfold calculate_title_similarity
  by_cases h1 : t1 = [] ∨ t2 = []
  · rw [if_pos h1]
    norm_num
  · rw [if_neg h1]
    by_cases h2 : normTitle t1 = normTitle t2
    · rw [if_pos h2]
      norm_num
    · rw [if_neg h2]
      by_cases h3 : (pySplitWs (normTitle t1)).toFinset ≠ ∅ ∧
          (pySplitWs (normTitle t2)).toFinset ≠ ∅
      · rw [if_pos h3]
        have hne : ((pySplitWs (normTitle t1)).toFinset).Nonempty ∨
            ((pySplitWs (normTitle t2)).toFinset).Nonempty :=
          Or.inl (Finset.nonempty_iff_ne_empty.mpr h3.1)
        have hj := jaccardQ_bounds (pySplitWs (normTitle t1)).toFinset
          (pySplitWs (normTitle t2)).toFinset hne
        by_cases h4 : ((pySplitWs (normTitle t1)).toFinset ∩
            (pySplitWs (normTitle t2)).toFinset).card /
            (((pySplitWs (normTitle t1)).toFinset ∪
              (pySplitWs (normTitle t2)).toFinset).card : ℚ) < 1 / 5
        · rw [if_pos h4]
          constructor
          · have := hj.1
            linarith
          · have := hj.2
            linarith
        · rw [if_neg h4]
          exact fast_string_similarity_bounds _ _
      · rw [if_neg h3]
        exact fast_string_similarity_bounds _ _

theorem countEqPre_le (s1 s2 : Str) (n : Nat) : countEqPre s1 s2 n ≤ n := by
  unfold countEqPre
  have main : ∀ (l1 l2 : Str),
      (List.zipWith (fun a b => if a = b then 1 else 0) l1 l2).sum ≤ l1.length := by
    intro l1
    induction l1 with
    | nil => intro l2; simp
    | cons c rest ih =>
      intro l2
      cases l2 with
      | nil => simp
      | cons d rest2 =>
        simp only [List.zipWith_cons_cons, List.sum_cons, List.length_cons]
        have := ih rest2
        by_cases h : c = d
        · rw [if_pos h]
          omega
        · rw [if_neg h]
          omega
  calc (List.zipWith (fun a b => if a = b then 1 else 0) (s1.take n) (s2.take n)).sum
      ≤ (s1.take n).length := main _ _
    _ ≤ n := by
        rw [List.length_take]
        omega

theorem queryKeyJaccard_bounds (q1 q2 : Str) :
    0 ≤ queryKeyJaccard q1 q2 ∧ queryKeyJaccard q1 q2 ≤ 1 := by
  unfold queryKeyJaccard
  by_cases h : ((parse_qs q1).map Prod.fst).toFinset ≠ ∅ ∨
      ((parse_qs q2).map Prod.fst).toFinset ≠ ∅
  · rw [if_pos h]
    apply jaccardQ_bounds
    rcases h with h | h
    · exact Or.inl (Finset.nonempty_iff_ne_empty.mpr h)
    · exact Or.inr (Finset.nonempty_iff_ne_empty.mpr h)
  · rw [if_neg h]
    norm_num

theorem pathParamScore_bounds (p1 p2 : ParseResult) :
    0 ≤ pathParamScore p1 p2 ∧ pathParamScore p1 p2 ≤ 1 := by
  unfold pathParamScore
  have hf := fast_string_similarity_bounds p1.path p2.path
  have hq := queryKeyJaccard_bounds p1.query p2.query
  constructor
  · have := hf.1
    have := hq.1
    positivity
  · nlinarith [hf.1, hf.2, hq.1, hq.2]

theorem urlSimCore_bounds (n1 n2 : Str) :
    0 ≤ urlSimCore n1 n2 ∧ urlSimCore n1 n2 ≤ 1 := by
  unfold urlSimCore
  by_cases h1 : n1 = n2
  · rw [if_pos h1]
    norm_num
  · rw [if_neg h1]
    rcases hp1 : urlparseE n1 with e1 | p1 <;> rcases hp2 : urlparseE n2 with e2 | p2
    all_goals dsimp only
    · exact fast_string_similarity_bounds n1 n2
    · exact fast_string_similarity_bounds n1 n2
    · exact fast_string_similarity_bounds n1 n2
    · by_cases hnet : p1.netloc ≠ p2.netloc
      · rw [if_pos hnet]
        norm_num
      · rw [if_neg hnet]
        rcases hsc : prefixShortcut n1 n2 with _ | r
        · dsimp only
          exact pathParamScore_bounds p1 p2
        · dsimp only
          unfold prefixShortcut at hsc
          by_cases hlen : n1.length > 50 ∧ n2.length > 50
          · rw [if_pos hlen] at hsc
            by_cases hps : (countEqPre n1 n2 50 : ℚ) / 50 < 2 / 5
            · rw [if_pos hps] at hsc
              injection hsc with hr
              subst hr
              have hcount : (countEqPre n1 n2 50 : ℚ) ≤ 50 := by
                exact_mod_cast countEqPre_le n1 n2 50
              have hcount0 : (0 : ℚ) ≤ (countEqPre n1 n2 50 : ℚ) := by positivity
              constructor
              · positivity
              · nlinarith
            · rw [if_neg hps] at hsc
              exact absurd hsc (by simp)
          · rw [if_neg hlen] at hsc
            exact absurd hsc (by simp)

theorem calculate_url_similarity_bounds (u1 u2 : Str) :
    0 ≤ calculate_url_similarity u1 u2 ∧ calculate_url_similarity u1 u2 ≤ 1 :=
  urlSimCore_bounds _ _

theorem simCacheKey_comm (u1 u2 : Str) : simCacheKey u2 u1 = simCacheKey u1 u2 := by
  unfold simCacheKey
  by_cases h12 : strLt u1 u2 = true <;> by_cases h21 : strLt u2 u1 = true
  · exfalso
    rw [strLt_iff_lt] at h12 h21
    exact absurd h12 (lt_asymm h21)
  · rw [if_pos h12, if_neg (by simpa using h21)]
  · rw [if_pos h21, if_neg (by simpa using h12)]
  · have : u1 = u2 := by
      rw [strLt_iff_lt] at h12 h21
      rcases lt_trichotomy u1 u2 with h | h | h
      · exact absurd h (by simpa using h12)
      · exact h
      · exact absurd h (by simpa using h21)
    subst this
    rfl

theorem find?_append_of_none {p : (Str × Str) × ℚ → Bool}
    {l1 : SimCache} (l2 : SimCache) (h : l1.find? p = none) :
    (l1 ++ l2).find? p = l2.find? p := by
  induction l1 with
  | nil => rfl
  | cons x rest ih =>
    rw [List.find?_cons] at h
    by_cases hx : p x
    · rw [hx] at h
      exact absurd h (by simp)
    · rw [List.cons_append, List.find?_cons]
      rw [show p x = false by simpa using hx] at h ⊢
      exact ih h

/-- A second query of the same unordered pair, in either order, returns
the value stored by the first. -/
theorem cache_second_query (c : SimCache) (u1 u2 : Str) :
    (calculate_url_similarity_cached
        (calculate_url_similarity_cached c u1 u2).2 u2 u1).1 =
      (calculate_url_similarity_cached c u1 u2).1 := by
  have hkey : (fun (e : (Str × Str) × ℚ) => decide (e.1 = simCacheKey u2 u1)) =
      fun e => decide (e.1 = simCacheKey u1 u2) := by
    funext e
    rw [simCacheKey_comm]
  rcases hfind : c.find? (fun e => e.1 = simCacheKey u1 u2) with _ | e
  · have h1 : calculate_url_similarity_cached c u1 u2 =
        (calculate_url_similarity u1 u2,
          c ++ [(simCacheKey u1 u2, calculate_url_similarity u1 u2)]) := by
      unfold calculate_url_similarity_cached
      rw [hfind]
    rw [h1]
    unfold calculate_url_similarity_cached
    dsimp only
    rw [hkey, find?_append_of_none _ hfind]
    simp
  · have h1 : calculate_url_similarity_cached c u1 u2 = (e.2, c) := by
      unfold calculate_url_similarity_cached
      rw [hfind]
    rw [h1]
    unfold calculate_url_similarity_cached
    dsimp only
    rw [hkey, hfind]

end Dedup

namespace Dedup

/-! ## Reduction lemmas for evaluating the scorer at concrete inputs
(rational arithmetic is not kernel-reducible, so concrete values are
established by branch-condition discharge plus norm_num). -/

theorem calculate_url_similarity_self (u : Str) :
    calculate_url_similarity u u = 1 := by
  unfold calculate_url_similarity urlSimCore
  rw [if_pos rfl]

theorem calculate_title_similarity_self (t : Str) (h : t ≠ []) :
    calculate_title_similarity t t = 1 := by
  unfold calculate_title_similarity
  rw [if_neg (by simp [h]), if_pos rfl]

theorem title_sim_eq_fast (t1 t2 : Str) (h1 : t1 ≠ []) (h2 : t2 ≠ [])
    (h3 : normTitle t1 ≠ normTitle t2)
    (h4 : ¬ ((((pySplitWs (normTitle t1)).toFinset ∩
        (pySplitWs (normTitle t2)).toFinset).card : ℚ) /
        (((pySplitWs (normTitle t1)).toFinset ∪
          (pySplitWs (normTitle t2)).toFinset).card : ℚ) < 1 / 5)) :
    calculate_title_similarity t1 t2 =
      fast_string_similarity (normTitle t1) (normTitle t2) := by
  unfold calculate_title_similarity
  rw [if_neg (by simp [h1, h2]), if_neg h3]
  by_cases h5 : (pySplitWs (normTitle t1)).toFinset ≠ ∅ ∧
      (pySplitWs (normTitle t2)).toFinset ≠ ∅
  · rw [if_pos h5, if_neg h4]
  · rw [if_neg h5]

theorem fast_eq_ratio (s1 s2 : Str) (h2 : ¬ (s1 = [] ∨ s2 = []))
    (h3 : s1 ≠ s2) (h4 : ¬ (s1.length > 100 ∨ s2.length > 100)) :
    fast_string_similarity s1 s2 = difflibRatio s1 s2 := by
  unfold fast_string_similarity
  rw [if_neg (by intro hc; exact h2 (Or.inl hc.1)), if_neg h2, if_neg h3,
    if_neg h4]

set_option maxRecDepth 100000 in
/-- C5 counterexample: titleSimilarity is not symmetric.  The two titles
share the word common, pass the word-overlap gate (Jaccard 1/3), and
reach difflib, whose greedy matching totals 10 characters in one order
but 9 in the other: 5/7 against 9/14. -/
theorem claim5_counterexample :
    calculate_title_similarity ("common epabqcd").toList ("common cdresab").toList ≠
      calculate_title_similarity ("common cdresab").toList ("common epabqcd").toList := by
  have hcap1 : ((pySplitWs (normTitle ("common epabqcd").toList)).toFinset ∩
      (pySplitWs (normTitle ("common cdresab").toList)).toFinset).card = 1 := by
    decide
  have hcup1 : ((pySplitWs (normTitle ("common epabqcd").toList)).toFinset ∪
      (pySplitWs (normTitle ("common cdresab").toList)).toFinset).card = 3 := by
    decide
  have hcap2 : ((pySplitWs (normTitle ("common cdresab").toList)).toFinset ∩
      (pySplitWs (normTitle ("common epabqcd").toList)).toFinset).card = 1 := by
    decide
  have hcup2 : ((pySplitWs (normTitle ("common cdresab").toList)).toFinset ∪
      (pySplitWs (normTitle ("common epabqcd").toList)).toFinset).card = 3 := by
    decide
  have e1 := title_sim_eq_fast ("common epabqcd").toList ("common cdresab").toList
    (by decide) (by decide) (by decide)
    (by rw [hcap1, hcup1]; norm_num)
  have e2 := title_sim_eq_fast ("common cdresab").toList ("common epabqcd").toList
    (by decide) (by decide) (by decide)
    (by rw [hcap2, hcup2]; norm_num)
  rw [e1, e2]
  rw [fast_eq_ratio _ _ (by decide) (by decide) (by decide),
    fast_eq_ratio _ _ (by decide) (by decide) (by decide)]
  unfold difflibRatio
  have hm1 : smMatches (normTitle ("common epabqcd").toList)
      (normTitle ("common cdresab").toList) = 10 := by decide
  have hm2 : smMatches (normTitle ("common cdresab").toList)
      (normTitle ("common epabqcd").toList) = 9 := by decide
  have hl1 : (normTitle ("common epabqcd").toList).length = 14 := by decide
  have hl2 : (normTitle ("common cdresab").toList).length = 14 := by decide
  rw [hm1, hm2, hl1, hl2]
  norm_num

/-- C5 amended: both scorers are bounded in [0,1]; urlSimilarity of a URL
with itself is 1 and titleSimilarity of a non-empty title with itself is
1; and for urlSimilarity the unordered-key cache makes a second query of
the same pair, in either order, return the first stored value.  Symmetry
of the underlying computation fails for both scorers (difflib's ratio is
order dependent), so titleSimilarity, which has no cache, is not
symmetric. -/
theorem claim5_amended (u1 u2 t1 t2 : Str) (c : SimCache) :
    (0 ≤ calculate_url_similarity u1 u2 ∧ calculate_url_similarity u1 u2 ≤ 1) ∧
    (0 ≤ calculate_title_similarity t1 t2 ∧
      calculate_title_similarity t1 t2 ≤ 1) ∧
    calculate_url_similarity u1 u1 = 1 ∧
    (t1 ≠ [] → calculate_title_similarity t1 t1 = 1) ∧
    (calculate_url_similarity_cached
        (calculate_url_similarity_cached c u1 u2).2 u2 u1).1 =
      (calculate_url_similarity_cached c u1 u2).1 :=
  ⟨calculate_url_similarity_bounds u1 u2,
   calculate_title_similarity_bounds t1 t2,
   calculate_url_similarity_self u1,
   calculate_title_similarity_self t1,
   cache_second_query c u1 u2⟩

/-- C5 witness at concrete strings, discharging the non-empty-title
hypothesis. -/
theorem claim5_witness :
    calculate_title_similarity ("a").toList ("a").toList = 1 :=
  (claim5_amended [] [] ("a").toList [] []).2.2.2.1 (by decide)

end Dedup

namespace Dedup

/-! ## Batch-pass grouping lemmas -/

theorem pairKey_eq_iff (a b c d : Int) :
    pairKey a b = pairKey c d ↔ (a = c ∧ b = d) ∨ (a = d ∧ b = c) := by
  unfold pairKey
  split_ifs <;> simp [Prod.ext_iff] <;> omega

theorem groupHas_iff (g : List SBook) (i : Int) :
    groupHas g i = true ↔ ∃ b ∈ g, b.id = i := by
  unfold groupHas
  simp

theorem groupHas_append (g t : List SBook) (i : Int)
    (h : groupHas g i = true) : groupHas (g ++ t) i = true := by
  rw [groupHas_iff] at h ⊢
  obtain ⟨b, hb, hb2⟩ := h
  exact ⟨b, List.mem_append_left t hb, hb2⟩

theorem addToGroup_suffix (g : List SBook) (b1 b2 : SBook) :
    ∃ t, addToGroup g b1 b2 = g ++ t := by
  unfold addToGroup
  dsimp only
  cases hb1 : groupHas g b1.id with
  | false =>
    rw [if_pos (by decide : ¬ false = true)]
    cases hb2 : groupHas (g ++ [b1]) b2.id with
    | false =>
      rw [if_pos (by simp [hb2])]
      exact ⟨[b1, b2], by simp⟩
    | true =>
      rw [if_neg (by simp [hb2])]
      exact ⟨[b1], rfl⟩
  | true =>
    rw [if_neg (by decide : ¬ ¬ true = true)]
    cases hb2 : groupHas g b2.id with
    | false =>
      rw [if_pos (by simp [hb2])]
      exact ⟨[b2], rfl⟩
    | true =>
      rw [if_neg (by simp [hb2])]
      exact ⟨[], (List.append_nil g).symm⟩

theorem groupHas_addToGroup_left (g : List SBook) (b1 b2 : SBook) (i : Int)
    (h : groupHas g i = true) : groupHas (addToGroup g b1 b2) i = true := by
  obtain ⟨t, ht⟩ := addToGroup_suffix g b1 b2
  rw [ht]
  exact groupHas_append g t i h

theorem addToGroup_has (g : List SBook) (b1 b2 : SBook) :
    groupHas (addToGroup g b1 b2) b1.id = true ∧
      groupHas (addToGroup g b1 b2) b2.id = true := by
  unfold addToGroup
  dsimp only
  cases hb1 : groupHas g b1.id with
  | false =>
    rw [if_pos (by decide : ¬ false = true)]
    have hin1 : groupHas (g ++ [b1]) b1.id = true :=
      (groupHas_iff _ _).mpr ⟨b1, by simp, rfl⟩
    cases hb2 : groupHas (g ++ [b1]) b2.id with
    | false =>
      rw [if_pos (by simp [hb2])]
      exact ⟨groupHas_append _ [b2] b1.id hin1,
        (groupHas_iff _ _).mpr ⟨b2, by simp, rfl⟩⟩
    | true =>
      rw [if_neg (by simp [hb2])]
      exact ⟨hin1, hb2⟩
  | true =>
    rw [if_neg (by decide : ¬ ¬ true = true)]
    cases hb2 : groupHas g b2.id with
    | false =>
      rw [if_pos (by simp [hb2])]
      exact ⟨groupHas_append g [b2] b1.id hb1,
        (groupHas_iff _ _).mpr ⟨b2, by simp, rfl⟩⟩
    | true =>
      rw [if_neg (by simp [hb2])]
      exact ⟨hb1, hb2⟩

theorem nodup_append_one (g : List SBook) (b : SBook)
    (h : (g.map SBook.id).Nodup) (hb : groupHas g b.id = false) :
    ((g ++ [b]).map SBook.id).Nodup := by
  have hb2 : ∀ c ∈ g, ¬ c.id = b.id := by
    intro c hc hcb
    have : groupHas g b.id = true := (groupHas_iff _ _).mpr ⟨c, hc, hcb⟩
    rw [this] at hb
    exact Bool.true_eq_false.mp hb |>.elim
  simp only [List.map_append, List.map_cons, List.map_nil]
  rw [List.nodup_append]
  refine ⟨h, List.nodup_singleton _, ?_⟩
  intro x hx hx2
  simp only [List.mem_singleton] at hx2
  obtain ⟨c, hc, hcid⟩ := List.mem_map.mp hx
  exact hb2 c hc (by rw [hcid, hx2])

theorem addToGroup_nodup (g : List SBook) (b1 b2 : SBook)
    (h : (g.map SBook.id).Nodup) :
    ((addToGroup g b1 b2).map SBook.id).Nodup := by
  unfold addToGroup
  dsimp only
  cases hb1 : groupHas g b1.id with
  | false =>
    rw [if_pos (by decide : ¬ false = true)]
    have hnd1 := nodup_append_one g b1 h hb1
    cases hb2 : groupHas (g ++ [b1]) b2.id with
    | false =>
      rw [if_pos (by simp [hb2])]
      exact nodup_append_one (g ++ [b1]) b2 hnd1 hb2
    | true =>
      rw [if_neg (by simp [hb2])]
      exact hnd1
  | true =>
    rw [if_neg (by decide : ¬ ¬ true = true)]
    cases hb2 : groupHas g b2.id with
    | false =>
      rw [if_pos (by simp [hb2])]
      exact nodup_append_one g b2 h hb2
    | true =>
      rw [if_neg (by simp [hb2])]
      exact h

theorem ndPairs_mem_components (l : List NormData) (d1 d2 : NormData)
    (h : (d1, d2) ∈ ndPairs l) : d1 ∈ l ∧ d2 ∈ l := by
  induction l with
  | nil => simp [ndPairs] at h
  | cons d rest ih =>
    rw [ndPairs] at h
    rcases List.mem_append.mp h with hm | hm
    · obtain ⟨x, hx, hpx⟩ := List.mem_map.mp hm
      obtain ⟨rfl, rfl⟩ := Prod.mk.injEq .. ▸ hpx
      exact ⟨by simp, by simp [hx]⟩
    · obtain ⟨h1, h2⟩ := ih hm
      exact ⟨List.mem_cons_of_mem d h1, List.mem_cons_of_mem d h2⟩

theorem ndPairs_ids_ne (l : List NormData) (d1 d2 : NormData)
    (hnd : (l.map fun d => d.bk.id).Nodup) (h : (d1, d2) ∈ ndPairs l) :
    d1.bk.id ≠ d2.bk.id := by
  induction l with
  | nil => simp [ndPairs] at h
  | cons d rest ih =>
    simp only [List.map_cons, List.nodup_cons] at hnd
    rw [ndPairs] at h
    rcases List.mem_append.mp h with hm | hm
    · obtain ⟨x, hx, hpx⟩ := List.mem_map.mp hm
      obtain ⟨rfl, rfl⟩ := Prod.mk.injEq .. ▸ hpx
      intro he
      exact hnd.1 (he ▸ List.mem_map.mpr ⟨x, hx, rfl⟩)
    · exact ih hnd.2 hm

end Dedup

namespace Dedup

theorem batchStep_proc_eq (θ : ℚ) (st : List (List SBook) × List (Int × Int))
    (p : NormData × NormData) :
    (batchStep θ st p).2 = st.2 ∨
      (batchStep θ st p).2 = st.2 ++ [pairKey p.1.bk.id p.2.bk.id] := by
  unfold batchStep
  dsimp only
  cases hc : st.2.contains (pairKey p.1.bk.id p.2.bk.id) with
  | true =>
    rw [if_pos (by decide : (true = true))]
    exact Or.inl rfl
  | false =>
    rw [if_neg (by decide : ¬ (false = true))]
    split_ifs <;> try exact Or.inr rfl
    rcases List.findIdx? (fun g => groupHas g p.1.bk.id ∨ groupHas g p.2.bk.id) st.1 with _ | gi
    · exact Or.inr rfl
    · exact Or.inr rfl


theorem mem_set_of_mem (l : List (List SBook)) (gi : Nat) (x g : List SBook)
    (h : g ∈ l) :
    g ∈ l.set gi x ∨ (gi < l.length ∧ g = l.getD gi []) := by
  obtain ⟨k, hk, hgk⟩ := List.mem_iff_getElem.mp h
  by_cases hki : k = gi
  · subst hki
    exact Or.inr ⟨hk, by rw [List.getD_eq_getElem l [] hk, hgk]⟩
  · left
    rw [List.mem_iff_getElem]
    refine ⟨k, by simpa using hk, ?_⟩
    rw [List.getElem_set_ne (by omega)]
    exact hgk

theorem set_mem_self (l : List (List SBook)) (gi : Nat) (x : List SBook)
    (h : gi < l.length) : x ∈ l.set gi x := by
  rw [List.mem_iff_getElem]
  refine ⟨gi, by simpa using h, ?_⟩
  exact List.getElem_set_self (by simpa using h)

theorem batchStep_gp_mono (θ : ℚ) (st : List (List SBook) × List (Int × Int))
    (p : NormData × NormData) (i j : Int)
    (h : ∃ g ∈ st.1, groupHas g i = true ∧ groupHas g j = true) :
    ∃ g ∈ (batchStep θ st p).1, groupHas g i = true ∧ groupHas g j = true := by
  unfold batchStep
  dsimp only
  cases hc : st.2.contains (pairKey p.1.bk.id p.2.bk.id) with
  | true =>
    rw [if_pos (by decide : (true = true))]
    exact h
  | false =>
    rw [if_neg (by decide : ¬ (false = true))]
    split_ifs <;> try exact h
    rcases hidx : List.findIdx? (fun g => groupHas g p.1.bk.id ∨ groupHas g p.2.bk.id) st.1
      with _ | gi
    · obtain ⟨g, hg, hgi, hgj⟩ := h
      exact ⟨g, List.mem_append_left _ hg, hgi, hgj⟩
    · obtain ⟨g, hg, hgi, hgj⟩ := h
      rcases mem_set_of_mem st.1 gi (addToGroup (st.1.getD gi []) p.1.bk p.2.bk) g hg
        with hmem | ⟨hlt, hgd⟩
      · exact ⟨g, hmem, hgi, hgj⟩
      · refine ⟨addToGroup (st.1.getD gi []) p.1.bk p.2.bk,
          set_mem_self st.1 gi _ hlt, ?_, ?_⟩
        · exact groupHas_addToGroup_left _ _ _ _ (hgd ▸ hgi)
        · exact groupHas_addToGroup_left _ _ _ _ (hgd ▸ hgj)

theorem batchStep_nodup (θ : ℚ) (st : List (List SBook) × List (Int × Int))
    (p : NormData × NormData) (hp : p.1.bk.id ≠ p.2.bk.id)
    (h : ∀ g ∈ st.1, (g.map SBook.id).Nodup) :
    ∀ g ∈ (batchStep θ st p).1, (g.map SBook.id).Nodup := by
  unfold batchStep
  dsimp only
  cases hc : st.2.contains (pairKey p.1.bk.id p.2.bk.id) with
  | true =>
    rw [if_pos (by decide : (true = true))]
    exact h
  | false =>
    rw [if_neg (by decide : ¬ (false = true))]
    split_ifs <;> try exact h
    rcases hidx : List.findIdx? (fun g => groupHas g p.1.bk.id ∨ groupHas g p.2.bk.id) st.1
      with _ | gi
    · intro g hg
      rcases List.mem_append.mp hg with hg | hg
      · exact h g hg
      · rw [List.mem_singleton.mp hg]
        simp [List.Nodup, hp]
    · intro g hg
      rcases List.mem_or_eq_of_mem_set hg with hg | rfl
      · exact h g hg
      · refine addToGroup_nodup _ _ _ ?_
        by_cases hgi : gi < st.1.length
        · rw [List.getD_eq_getElem st.1 [] hgi]
          exact h _ (List.getElem_mem hgi)
        · rw [List.getD_eq_default st.1 [] (by omega)]
          simp

theorem batchStep_establish (θ : ℚ) (st : List (List SBook) × List (Int × Int))
    (d1 d2 : NormData)
    (hkey : st.2.contains (pairKey d1.bk.id d2.bk.id) = false)
    (hf1 : skipLengthFilter d1 d2 = false)
    (hf2 : skipPathFilter d1 d2 = false)
    (hf3 : skipWordsFilter d1 d2 = false)
    (hus : ¬ (calculate_url_similarity d1.bk.url d2.bk.url < θ * (3 / 5)))
    (hcomb : combinedSimilarity d1.bk d2.bk ≥ θ) :
    ∃ g ∈ (batchStep θ st (d1, d2)).1,
      groupHas g d1.bk.id = true ∧ groupHas g d2.bk.id = true := by
  unfold batchStep
  dsimp only
  rw [if_neg (by rw [hkey]; decide), if_neg (by simp [hf1]), if_neg (by simp [hf2]),
    if_neg (by simp [hf3]), if_neg hus,
    if_pos (by unfold combinedSimilarity at hcomb; exact hcomb)]
  rcases hidx : List.findIdx? (fun g => groupHas g d1.bk.id ∨ groupHas g d2.bk.id) st.1
    with _ | gi
  · refine ⟨[d1.bk, d2.bk], List.mem_append_right _ (by simp), ?_, ?_⟩
    · exact (groupHas_iff _ _).mpr ⟨d1.bk, by simp, rfl⟩
    · exact (groupHas_iff _ _).mpr ⟨d2.bk, by simp, rfl⟩
  · have hlt : gi < st.1.length :=
      (List.findIdx?_eq_some_iff_findIdx_eq.mp hidx).1
    refine ⟨addToGroup (st.1.getD gi []) d1.bk d2.bk,
      set_mem_self st.1 gi _ hlt, ?_, ?_⟩
    · exact (addToGroup_has _ _ _).1
    · exact (addToGroup_has _ _ _).2


theorem fold_proc (θ : ℚ) (L : List (NormData × NormData)) :
    ∀ (st : List (List SBook) × List (Int × Int)) (k : Int × Int),
      k ∈ (L.foldl (batchStep θ) st).2 →
      k ∈ st.2 ∨ ∃ p ∈ L, k = pairKey p.1.bk.id p.2.bk.id := by
  induction L with
  | nil => intro st k hk; exact Or.inl hk
  | cons p rest ih =>
    intro st k hk
    rw [List.foldl_cons] at hk
    rcases ih (batchStep θ st p) k hk with hk | ⟨q, hq, hkq⟩
    · rcases batchStep_proc_eq θ st p with he | he
      · rw [he] at hk
        exact Or.inl hk
      · rw [he] at hk
        rcases List.mem_append.mp hk with hk | hk
        · exact Or.inl hk
        · exact Or.inr ⟨p, by simp, List.mem_singleton.mp hk⟩
    · exact Or.inr ⟨q, List.mem_cons_of_mem p hq, hkq⟩

theorem fold_gp_mono (θ : ℚ) (L : List (NormData × NormData)) (i j : Int) :
    ∀ (st : List (List SBook) × List (Int × Int)),
      (∃ g ∈ st.1, groupHas g i = true ∧ groupHas g j = true) →
      ∃ g ∈ (L.foldl (batchStep θ) st).1,
        groupHas g i = true ∧ groupHas g j = true := by
  induction L with
  | nil => intro st h; exact h
  | cons p rest ih =>
    intro st h
    rw [List.foldl_cons]
    exact ih (batchStep θ st p) (batchStep_gp_mono θ st p i j h)

theorem fold_nodup (θ : ℚ) (L : List (NormData × NormData))
    (hL : ∀ p ∈ L, p.1.bk.id ≠ p.2.bk.id) :
    ∀ (st : List (List SBook) × List (Int × Int)),
      (∀ g ∈ st.1, (g.map SBook.id).Nodup) →
      ∀ g ∈ (L.foldl (batchStep θ) st).1, (g.map SBook.id).Nodup := by
  induction L with
  | nil => intro st h; exact h
  | cons p rest ih =>
    intro st h
    rw [List.foldl_cons]
    exact ih (fun q hq => hL q (List.mem_cons_of_mem p hq)) (batchStep θ st p)
      (batchStep_nodup θ st p (hL p (by simp)) h)

theorem precompute_bk (bs : List SBook) :
    ∀ nds, precompute bs = Except.ok nds → nds.map NormData.bk = bs := by
  induction bs with
  | nil =>
    intro nds h
    unfold precompute at h
    simp only [List.mapM_nil] at h
    cases h
    rfl
  | cons b rest ih =>
    intro nds h
    unfold precompute at h
    rw [List.mapM_cons] at h
    cases hub : urlparseE (normalize_url b.url) with
    | error e =>
      rw [show (do
            let nu := normalize_url b.url
            let p ← urlparseE nu
            let nt := normTitle (b.title.getD [])
            (pure ⟨b, nu, nt, p, if nt ≠ [] then (pySplitWs nt).toFinset else ∅⟩ :
              Except Unit NormData)) = Except.error e by
          dsimp only
          rw [hub]
          rfl] at h
      cases h
    | ok pr =>
      rw [show (do
            let nu := normalize_url b.url
            let p ← urlparseE nu
            let nt := normTitle (b.title.getD [])
            (pure ⟨b, nu, nt, p, if nt ≠ [] then (pySplitWs nt).toFinset else ∅⟩ :
              Except Unit NormData)) = Except.ok ⟨b, normalize_url b.url,
              normTitle (b.title.getD []), pr,
              if normTitle (b.title.getD []) ≠ [] then
                (pySplitWs (normTitle (b.title.getD []))).toFinset else ∅⟩ by
          dsimp only
          rw [hub]
          rfl] at h
      cases hrest : List.mapM (fun b => do
          let nu := normalize_url b.url
          let p ← urlparseE nu
          let nt := normTitle (b.title.getD [])
          (pure ⟨b, nu, nt, p, if nt ≠ [] then (pySplitWs nt).toFinset else ∅⟩ :
            Except Unit NormData)) rest with
      | error e =>
        rw [hrest] at h
        cases h
      | ok tl =>
        rw [hrest] at h
        have htl : List.map NormData.bk tl = rest := ih tl hrest
        cases h
        simp [htl]


theorem contains_eq_false_of_not_mem (l : List (Int × Int)) (k : Int × Int)
    (h : k ∉ l) : l.contains k = false := by
  cases hc : l.contains k with
  | false => rfl
  | true =>
    exact absurd (by simpa using hc : k ∈ l) h

theorem mapPart_reach (θ : ℚ) (d d2 : NormData)
    (hf1 : skipLengthFilter d d2 = false) (hf2 : skipPathFilter d d2 = false)
    (hf3 : skipWordsFilter d d2 = false)
    (hus : ¬ (calculate_url_similarity d.bk.url d2.bk.url < θ * (3 / 5)))
    (hcomb : combinedSimilarity d.bk d2.bk ≥ θ) :
    ∀ (r : List NormData) (st : List (List SBook) × List (Int × Int)),
      d2 ∈ r →
      (∀ y ∈ r, d.bk.id ≠ y.bk.id) →
      (∀ y ∈ r, y.bk.id = d2.bk.id → y = d2) →
      pairKey d.bk.id d2.bk.id ∉ st.2 →
      ∃ g ∈ ((r.map fun x => (d, x)).foldl (batchStep θ) st).1,
        groupHas g d.bk.id = true ∧ groupHas g d2.bk.id = true := by
  intro r
  induction r with
  | nil => intro st hmem; exact absurd hmem (by simp)
  | cons y r2 ih =>
    intro st hmem hdr hinj hfresh
    rw [List.map_cons, List.foldl_cons]
    by_cases hy : y = d2
    · rw [hy]
      have hest := batchStep_establish θ st d d2
        (contains_eq_false_of_not_mem _ _ hfresh) hf1 hf2 hf3 hus hcomb
      exact fold_gp_mono θ (r2.map fun x => (d, x)) d.bk.id d2.bk.id
        (batchStep θ st (d, d2)) hest
    · have hfresh2 : pairKey d.bk.id d2.bk.id ∉ (batchStep θ st (d, y)).2 := by
        rcases batchStep_proc_eq θ st (d, y) with he | he <;> rw [he]
        · exact hfresh
        · intro hm
          rcases List.mem_append.mp hm with hm | hm
          · exact hfresh hm
          · have hkk := List.mem_singleton.mp hm
            rcases (pairKey_eq_iff _ _ _ _).mp hkk with ⟨h1, h2⟩ | ⟨h1, h2⟩
            · exact hy (hinj y (by simp) h2.symm)
            · exact hdr y (by simp) h1
      have hmem2 : d2 ∈ r2 := by
        rcases List.mem_cons.mp hmem with hm | hm
        · exact absurd hm.symm hy
        · exact hm
      exact ih (batchStep θ st (d, y)) hmem2
        (fun z hz => hdr z (List.mem_cons_of_mem y hz))
        (fun z hz => hinj z (List.mem_cons_of_mem y hz)) hfresh2

theorem batch_fold_reach (θ : ℚ) (d1 d2 : NormData)
    (hf1 : skipLengthFilter d1 d2 = false) (hf2 : skipPathFilter d1 d2 = false)
    (hf3 : skipWordsFilter d1 d2 = false)
    (hus : ¬ (calculate_url_similarity d1.bk.url d2.bk.url < θ * (3 / 5)))
    (hcomb : combinedSimilarity d1.bk d2.bk ≥ θ) :
    ∀ (l : List NormData) (st : List (List SBook) × List (Int × Int)),
      (d1, d2) ∈ ndPairs l →
      (l.map fun d => d.bk.id).Nodup →
      pairKey d1.bk.id d2.bk.id ∉ st.2 →
      ∃ g ∈ ((ndPairs l).foldl (batchStep θ) st).1,
        groupHas g d1.bk.id = true ∧ groupHas g d2.bk.id = true := by
  intro l
  induction l with
  | nil => intro st hmem; exact absurd hmem (by simp [ndPairs])
  | cons d rest ih =>
    intro st hmem hnd hfresh
    simp only [List.map_cons, List.nodup_cons] at hnd
    rw [ndPairs] at hmem ⊢
    rw [List.foldl_append]
    rcases List.mem_append.mp hmem with hm | hm
    · obtain ⟨x, hx, hpx⟩ := List.mem_map.mp hm
      have hd1 : d = d1 := congrArg Prod.fst hpx
      have hd2 : x = d2 := congrArg Prod.snd hpx
      have hf1a : skipLengthFilter d x = false := by rw [hd1, hd2]; exact hf1
      have hf2a : skipPathFilter d x = false := by rw [hd1, hd2]; exact hf2
      have hf3a : skipWordsFilter d x = false := by rw [hd1, hd2]; exact hf3
      have husa : ¬ (calculate_url_similarity d.bk.url x.bk.url < θ * (3 / 5)) := by
        rw [hd1, hd2]; exact hus
      have hcomba : combinedSimilarity d.bk x.bk ≥ θ := by
        rw [hd1, hd2]; exact hcomb
      have hdr : ∀ y ∈ rest, d.bk.id ≠ y.bk.id := by
        intro y hy he
        exact hnd.1 (he ▸ List.mem_map.mpr ⟨y, hy, rfl⟩)
      have hinj : ∀ y ∈ rest, y.bk.id = x.bk.id → y = x :=
        fun y hy he => List.inj_on_of_nodup_map hnd.2 hy hx he
      have hfresha : pairKey d.bk.id x.bk.id ∉ st.2 := by
        rw [hd1, hd2]; exact hfresh
      rw [← hd1, ← hd2]
      exact fold_gp_mono θ (ndPairs rest) d.bk.id x.bk.id
        ((rest.map fun z => (d, z)).foldl (batchStep θ) st)
        (mapPart_reach θ d x hf1a hf2a hf3a husa hcomba rest st hx hdr hinj hfresha)
    · have hc := ndPairs_mem_components rest d1 d2 hm
      have hfresh2 : pairKey d1.bk.id d2.bk.id ∉
          ((rest.map fun x => (d, x)).foldl (batchStep θ) st).2 := by
        intro hk
        rcases fold_proc θ _ st _ hk with hk | ⟨p, hp, hkp⟩
        · exact hfresh hk
        · obtain ⟨x, hx, hpx⟩ := List.mem_map.mp hp
          rw [← hpx] at hkp
          rcases (pairKey_eq_iff _ _ _ _).mp hkp with ⟨h1, h2⟩ | ⟨h1, h2⟩
          · exact hnd.1 (h1 ▸ List.mem_map.mpr ⟨d1, hc.1, rfl⟩)
          · exact hnd.1 (h2 ▸ List.mem_map.mpr ⟨d2, hc.2, rfl⟩)
      exact ih _ hm hnd.2 hfresh2


/-- C7 amended: in the approximate pass, returned groups never repeat a
record id (given distinct input ids), and a candidate pair is guaranteed
a common group only when it additionally survives the three pre-filters
and the URL-similarity shortcut; a surviving pair with combined
similarity at or above the threshold whose key is not already marked
processed always ends up with both members in one group (the first
matching group, or a fresh one). -/
theorem claim7_amended (bookmarks : List SBook) (θ : ℚ)
    (processed0 : List (Int × Int)) (out : List (List SBook) × List (Int × Int))
    (hrun : find_similar_in_batch bookmarks θ processed0 = Except.ok out)
    (hnd : (bookmarks.map SBook.id).Nodup) :
    (∀ g ∈ out.1, (g.map SBook.id).Nodup) ∧
    (∀ nds d1 d2, precompute bookmarks = Except.ok nds →
      (d1, d2) ∈ ndPairs nds →
      skipLengthFilter d1 d2 = false → skipPathFilter d1 d2 = false →
      skipWordsFilter d1 d2 = false →
      ¬ (calculate_url_similarity d1.bk.url d2.bk.url < θ * (3 / 5)) →
      combinedSimilarity d1.bk d2.bk ≥ θ →
      pairKey d1.bk.id d2.bk.id ∉ processed0 →
      ∃ g ∈ out.1, groupHas g d1.bk.id = true ∧ groupHas g d2.bk.id = true) := by
  unfold find_similar_in_batch at hrun
  by_cases hlen : bookmarks.length < 2
  · rw [if_pos hlen] at hrun
    cases hrun
    constructor
    · intro g hg
      exact absurd hg (by simp)
    · intro nds d1 d2 hpre hmem
      have hmap := precompute_bk bookmarks nds hpre
      have hl : nds.length < 2 := by
        rw [← List.length_map nds NormData.bk, hmap]
        exact hlen
      exfalso
      match nds, hl with
      | [], _ => exact absurd hmem (by simp [ndPairs])
      | [x], _ => exact absurd hmem (by simp [ndPairs])
  · rw [if_neg hlen] at hrun
    cases hpre : precompute bookmarks with
    | error e =>
      rw [hpre] at hrun
      cases hrun
    | ok nds =>
      rw [hpre] at hrun
      have hout : out = (ndPairs nds).foldl (batchStep θ) ([], processed0) := by
        cases hrun
        rfl
      have hids : (nds.map fun d => d.bk.id).Nodup := by
        have : (nds.map fun d => d.bk.id) = bookmarks.map SBook.id := by
          rw [← precompute_bk bookmarks nds hpre, List.map_map]
          rfl
        rw [this]
        exact hnd
      constructor
      · rw [hout]
        refine fold_nodup θ (ndPairs nds) ?_ ([], processed0) (by simp)
        intro p hp
        exact ndPairs_ids_ne nds p.1 p.2 hids (by simpa using hp)
      · intro nds2 d1 d2 hpre2 hmem hf1 hf2 hf3 hus hcomb hkey
        have hnds : nds2 = nds := by
          injection hpre2 with h
          exact h.symm
        rw [hnds] at hmem
        rw [hout]
        exact batch_fold_reach θ d1 d2 hf1 hf2 hf3 hus hcomb nds
          ([], processed0) hmem hids hkey


set_option maxRecDepth 100000 in
/-- C7 counterexample: a candidate pair whose combined similarity is well
above the threshold (identical titles give titleSimilarity 1, so the
combination is at least 1/5 = the threshold) is dropped by the
URL-length pre-filter and ends up in no group: the batch returns no
groups at all for it. -/
theorem claim7_counterexample :
    combinedSimilarity
        ⟨5, ("http://a.com/p").toList, some ("t t t").toList, 0, ("a.com").toList⟩
        ⟨6, ("http://a.com/padding/long/pathname/here").toList,
          some ("t t t").toList, 0, ("a.com").toList⟩ ≥ (1 / 5 : ℚ) ∧
      find_similar_in_batch
        [⟨5, ("http://a.com/p").toList, some ("t t t").toList, 0, ("a.com").toList⟩,
         ⟨6, ("http://a.com/padding/long/pathname/here").toList,
           some ("t t t").toList, 0, ("a.com").toList⟩] (1 / 5) [] =
        Except.ok ([], [(5, 6)]) := by
  constructor
  · unfold combinedSimilarity
    dsimp only
    rw [calculate_title_similarity_self _ (by decide)]
    have h0 := (calculate_url_similarity_bounds ("http://a.com/p").toList
      ("http://a.com/padding/long/pathname/here").toList).1
    linarith
  · unfold find_similar_in_batch
    rw [if_neg (by decide)]
    have hpre : precompute
        [⟨5, ("http://a.com/p").toList, some ("t t t").toList, 0, ("a.com").toList⟩,
         ⟨6, ("http://a.com/padding/long/pathname/here").toList,
           some ("t t t").toList, 0, ("a.com").toList⟩] =
        Except.ok
          [⟨⟨5, ("http://a.com/p").toList, some ("t t t").toList, 0, ("a.com").toList⟩,
            ("http://a.com/p").toList, ("t t t").toList,
            ⟨("http").toList, ("a.com").toList, ("/p").toList, [], [], []⟩,
            (pySplitWs (("t t t").toList)).toFinset⟩,
           ⟨⟨6, ("http://a.com/padding/long/pathname/here").toList,
             some ("t t t").toList, 0, ("a.com").toList⟩,
            ("http://a.com/padding/long/pathname/here").toList, ("t t t").toList,
            ⟨("http").toList, ("a.com").toList,
              ("/padding/long/pathname/here").toList, [], [], []⟩,
            (pySplitWs (("t t t").toList)).toFinset⟩] := by
      decide
    rw [hpre]
    show Except.ok (List.foldl (batchStep (1 / 5)) ([], []) _) = _
    rw [show ndPairs
        [⟨⟨5, ("http://a.com/p").toList, some ("t t t").toList, 0, ("a.com").toList⟩,
          ("http://a.com/p").toList, ("t t t").toList,
          ⟨("http").toList, ("a.com").toList, ("/p").toList, [], [], []⟩,
          (pySplitWs (("t t t").toList)).toFinset⟩,
         ⟨⟨6, ("http://a.com/padding/long/pathname/here").toList,
           some ("t t t").toList, 0, ("a.com").toList⟩,
          ("http://a.com/padding/long/pathname/here").toList, ("t t t").toList,
          ⟨("http").toList, ("a.com").toList,
            ("/padding/long/pathname/here").toList, [], [], []⟩,
          (pySplitWs (("t t t").toList)).toFinset⟩] =
        [(⟨⟨5, ("http://a.com/p").toList, some ("t t t").toList, 0, ("a.com").toList⟩,
          ("http://a.com/p").toList, ("t t t").toList,
          ⟨("http").toList, ("a.com").toList, ("/p").toList, [], [], []⟩,
          (pySplitWs (("t t t").toList)).toFinset⟩,
          ⟨⟨6, ("http://a.com/padding/long/pathname/here").toList,
           some ("t t t").toList, 0, ("a.com").toList⟩,
          ("http://a.com/padding/long/pathname/here").toList, ("t t t").toList,
          ⟨("http").toList, ("a.com").toList,
            ("/padding/long/pathname/here").toList, [], [], []⟩,
          (pySplitWs (("t t t").toList)).toFinset⟩)] from rfl]
    rw [List.foldl_cons, List.foldl_nil]
    unfold batchStep
    dsimp only
    rw [if_neg (by decide)]
    rw [if_pos ?hlf]
    case hlf =>
      show skipLengthFilter _ _ = true
      unfold skipLengthFilter
      apply decide_eq_true
      dsimp only
      rw [show (("http://a.com/p").toList).length = 14 from by decide,
        show (("http://a.com/padding/long/pathname/here").toList).length = 39
          from by decide]
      rw [show ((((14 : Nat)) : Int) - (((39 : Nat)) : Int)).natAbs = 25
          from by decide]
      rw [show (max (14 : Nat) 39) = 39 from by decide]
      norm_num
    decide


/-- Concrete two-bookmark batch for exercising the grouping path: same
URL and same title, distinct ids. -/
def w7b1 : SBook :=
  ⟨1, ("http://w.com/a").toList, some ("hello world").toList, 0, ("w.com").toList⟩

def w7b2 : SBook :=
  ⟨2, ("http://w.com/a").toList, some ("hello world").toList, 0, ("w.com").toList⟩

def w7d1 : NormData :=
  ⟨w7b1, ("http://w.com/a").toList, ("hello world").toList,
    ⟨("http").toList, ("w.com").toList, ("/a").toList, [], [], []⟩,
    (pySplitWs (("hello world").toList)).toFinset⟩

def w7d2 : NormData :=
  ⟨w7b2, ("http://w.com/a").toList, ("hello world").toList,
    ⟨("http").toList, ("w.com").toList, ("/a").toList, [], [], []⟩,
    (pySplitWs (("hello world").toList)).toFinset⟩

theorem w7_lenFilter : skipLengthFilter w7d1 w7d2 = false := by
  unfold skipLengthFilter
  apply decide_eq_false
  dsimp only [w7d1, w7d2]
  rw [show (("http://w.com/a").toList).length = 14 from by decide]
  rw [show ((((14 : Nat)) : Int) - (((14 : Nat)) : Int)).natAbs = 0
      from by decide,
    show (max (14 : Nat) 14) = 14 from by decide]
  norm_num

theorem w7_wordsFilter : skipWordsFilter w7d1 w7d2 = false := by
  unfold skipWordsFilter
  apply decide_eq_false
  intro h
  exact h.2.2.2.2 ⟨by decide, by decide, by decide⟩

theorem w7_us : ¬ (calculate_url_similarity w7d1.bk.url w7d2.bk.url <
    (9 / 10 : ℚ) * (3 / 5)) := by
  dsimp only [w7d1, w7d2, w7b1, w7b2]
  rw [calculate_url_similarity_self]
  norm_num

theorem w7_comb : combinedSimilarity w7d1.bk w7d2.bk ≥ (9 / 10 : ℚ) := by
  unfold combinedSimilarity
  dsimp only [w7d1, w7d2, w7b1, w7b2]
  rw [calculate_url_similarity_self,
    calculate_title_similarity_self _ (by decide)]
  norm_num

/-- The concrete batch run shared by the approximate-pass theorems: the
two identical bookmarks form one group. -/
theorem w7_batch_run : find_similar_in_batch [w7b1, w7b2] (9 / 10) [] =
    Except.ok ([[w7b1, w7b2]], [(1, 2)]) := by
  unfold find_similar_in_batch
  rw [if_neg (by decide)]
  have hpre : precompute [w7b1, w7b2] = Except.ok [w7d1, w7d2] := by decide
  rw [hpre]
  show Except.ok (List.foldl (batchStep (9 / 10)) ([], []) _) = _
  rw [show ndPairs [w7d1, w7d2] = [(w7d1, w7d2)] from rfl]
  rw [List.foldl_cons, List.foldl_nil]
  unfold batchStep
  dsimp only
  rw [if_neg (by decide), if_neg (by simp [w7_lenFilter]),
    if_neg (by simp [show skipPathFilter w7d1 w7d2 = false from by decide]),
    if_neg (by simp [w7_wordsFilter]), if_neg w7_us,
    if_pos (by have h := w7_comb; unfold combinedSimilarity at h; exact h)]
  decide

/-- C7 witness: the amended theorem applied to a concrete batch of two
bookmarks with the same URL and title; both hypotheses hold and the pair
lands in one group. -/
theorem claim7_witness :
    ∃ g ∈ [[w7b1, w7b2]], groupHas g 1 = true ∧ groupHas g 2 = true := by
  have h := (claim7_amended [w7b1, w7b2] (9 / 10) [] ([[w7b1, w7b2]], [(1, 2)])
    w7_batch_run (by decide)).2 [w7d1, w7d2] w7d1 w7d2 (by decide) (by decide)
    w7_lenFilter (by decide) w7_wordsFilter w7_us w7_comb (by decide)
  exact h


/-! ## Domain-loop step equations and store-failure truncation -/

theorem simLoop_nil (store : SimStore) (θ : ℚ) (bs : Nat)
    (acc : List (List SBook)) (processed : List (Int × Int)) :
    simLoop store θ bs [] acc processed = acc := rfl

theorem simLoop_cons_skip2 (store : SimStore) (θ : ℚ) (bs : Nat)
    (dom : Str) (cnt : Nat) (rest : List (Str × Nat))
    (acc : List (List SBook)) (processed : List (Int × Int))
    (h : cnt < 2) :
    simLoop store θ bs ((dom, cnt) :: rest) acc processed =
      simLoop store θ bs rest acc processed := by
  rw [simLoop, if_pos h]

theorem simLoop_cons_skip500 (store : SimStore) (θ : ℚ) (bs : Nat)
    (dom : Str) (cnt : Nat) (rest : List (Str × Nat))
    (acc : List (List SBook)) (processed : List (Int × Int))
    (h2 : ¬ cnt < 2) (h5 : cnt > 500) :
    simLoop store θ bs ((dom, cnt) :: rest) acc processed =
      simLoop store θ bs rest acc processed := by
  rw [simLoop, if_neg h2, if_pos h5]

theorem simLoop_cons_ferr (store : SimStore) (θ : ℚ) (bs : Nat)
    (dom : Str) (cnt : Nat) (rest : List (Str × Nat))
    (acc : List (List SBook)) (processed : List (Int × Int)) (e : Unit)
    (h2 : ¬ cnt < 2) (h5 : ¬ cnt > 500)
    (hf : store.fetchByDomain dom (min bs cnt) = Except.error e) :
    simLoop store θ bs ((dom, cnt) :: rest) acc processed = acc := by
  rw [simLoop, if_neg h2, if_neg h5, hf]

theorem simLoop_cons_berr (store : SimStore) (θ : ℚ) (bs : Nat)
    (dom : Str) (cnt : Nat) (rest : List (Str × Nat))
    (acc : List (List SBook)) (processed : List (Int × Int))
    (bks : List SBook) (e : Unit)
    (h2 : ¬ cnt < 2) (h5 : ¬ cnt > 500)
    (hf : store.fetchByDomain dom (min bs cnt) = Except.ok bks)
    (hb : find_similar_in_batch bks θ processed = Except.error e) :
    simLoop store θ bs ((dom, cnt) :: rest) acc processed = acc := by
  rw [simLoop, if_neg h2, if_neg h5, hf]
  dsimp only
  rw [hb]

theorem simLoop_cons_ok (store : SimStore) (θ : ℚ) (bs : Nat)
    (dom : Str) (cnt : Nat) (rest : List (Str × Nat))
    (acc : List (List SBook)) (processed : List (Int × Int))
    (bks : List SBook) (gp : List (List SBook) × List (Int × Int))
    (h2 : ¬ cnt < 2) (h5 : ¬ cnt > 500)
    (hf : store.fetchByDomain dom (min bs cnt) = Except.ok bks)
    (hb : find_similar_in_batch bks θ processed = Except.ok gp) :
    simLoop store θ bs ((dom, cnt) :: rest) acc processed =
      simLoop store θ bs rest (acc ++ gp.1) gp.2 := by
  rw [simLoop, if_neg h2, if_neg h5, hf]
  dsimp only
  rw [hb]

theorem simLoop_trunc (store store2 : SimStore) (θ : ℚ) (bs : Nat)
    (ds2 : List (Str × Nat)) (dom : Str) (cnt : Nat)
    (hfsame : ∀ d n, store2.fetchByDomain d n = store.fetchByDomain d n)
    (h2 : ¬ cnt < 2) (h500 : ¬ cnt > 500)
    (hf : store.fetchByDomain dom (min bs cnt) = Except.error ()) :
    ∀ (ds1 : List (Str × Nat)) (acc : List (List SBook))
      (processed : List (Int × Int)),
      simLoop store θ bs (ds1 ++ (dom, cnt) :: ds2) acc processed =
        simLoop store2 θ bs ds1 acc processed := by
  intro ds1
  induction ds1 with
  | nil =>
    intro acc processed
    rw [List.nil_append, simLoop_nil,
      simLoop_cons_ferr store θ bs dom cnt ds2 acc processed () h2 h500 hf]
  | cons dc ds1t ih =>
    intro acc processed
    obtain ⟨d0, c0⟩ := dc
    rw [List.cons_append]
    by_cases hc2 : c0 < 2
    · rw [simLoop_cons_skip2 _ _ _ _ _ _ _ _ hc2,
        simLoop_cons_skip2 _ _ _ _ _ _ _ _ hc2]
      exact ih acc processed
    · by_cases hc5 : c0 > 500
      · rw [simLoop_cons_skip500 _ _ _ _ _ _ _ _ hc2 hc5,
          simLoop_cons_skip500 _ _ _ _ _ _ _ _ hc2 hc5]
        exact ih acc processed
      · cases hfv : store.fetchByDomain d0 (min bs c0) with
        | error e =>
          rw [simLoop_cons_ferr _ _ _ _ _ _ _ _ e hc2 hc5 hfv,
            simLoop_cons_ferr _ _ _ _ _ _ _ _ e hc2 hc5 ((hfsame d0 _).trans hfv)]
        | ok bks =>
          cases hbv : find_similar_in_batch bks θ processed with
          | error e =>
            rw [simLoop_cons_berr _ _ _ _ _ _ _ _ _ e hc2 hc5 hfv hbv,
              simLoop_cons_berr _ _ _ _ _ _ _ _ _ e hc2 hc5
                ((hfsame d0 _).trans hfv) hbv]
          | ok gp =>
            rw [simLoop_cons_ok _ _ _ _ _ _ _ _ _ gp hc2 hc5 hfv hbv,
              simLoop_cons_ok _ _ _ _ _ _ _ _ _ gp hc2 hc5
                ((hfsame d0 _).trans hfv) hbv]
            exact ih _ _

/-- C8 amended: the pass never raises and a store failure ends it with
exactly the groups accumulated so far, but the error itself is not part
of the result: the run on a store that fails at some domain is
indistinguishable from the run on a store whose domain list simply stops
before that domain. -/
theorem claim8_amended (store store2 : SimStore) (θ : ℚ) (bs : Nat)
    (ds1 ds2 : List (Str × Nat)) (dom : Str) (cnt : Nat) (total : Nat)
    (hc : store.countActive = Except.ok total)
    (hc2 : store2.countActive = Except.ok total)
    (hd : store.domainCounts = Except.ok (ds1 ++ (dom, cnt) :: ds2))
    (hd2 : store2.domainCounts = Except.ok ds1)
    (hfsame : ∀ d n, store2.fetchByDomain d n = store.fetchByDomain d n)
    (h2 : ¬ cnt < 2) (h500 : ¬ cnt > 500)
    (hf : store.fetchByDomain dom (min bs cnt) = Except.error ()) :
    find_similar_duplicates store θ bs = find_similar_duplicates store2 θ bs := by
  unfold find_similar_duplicates
  rw [hc, hc2]
  dsimp only
  by_cases ht : total < 2
  · rw [if_pos ht, if_pos ht]
  · rw [if_neg ht, if_neg ht, hd, hd2]
    dsimp only
    exact simLoop_trunc store store2 θ bs ds2 dom cnt hfsame h2 h500 hf ds1 [] []


/-- The batch fetch shared by the two concrete stores: the w.com domain
answers with the two identical bookmarks, any other domain fails. -/
def st8fetch : Str → Nat → Except Unit (List SBook) :=
  fun dom _ =>
    if dom = ("w.com").toList then Except.ok [w7b1, w7b2] else Except.error ()

/-- A store whose second domain fails to respond. -/
def st8fail : SimStore :=
  ⟨Except.ok 4, Except.ok [(("w.com").toList, 2), (("x.com").toList, 2)], st8fetch⟩

/-- The same store with the failing domain simply absent. -/
def st8trunc : SimStore :=
  ⟨Except.ok 4, Except.ok [(("w.com").toList, 2)], st8fetch⟩

set_option maxRecDepth 100000 in
/-- C8 counterexample: a store that fails at its second domain yields
exactly the groups accumulated before the failure, with no error
attached: the result is identical to the run on a store that never had
the failing domain, so the failure is only logged, not reported to the
caller. -/
theorem claim8_counterexample :
    st8fail.fetchByDomain (("x.com").toList) (min 100 2) = Except.error () ∧
    find_similar_duplicates st8fail (9 / 10) 100 = [[w7b1, w7b2]] ∧
    find_similar_duplicates st8trunc (9 / 10) 100 = [[w7b1, w7b2]] := by
  refine ⟨rfl, ?_, ?_⟩
  · unfold find_similar_duplicates
    rw [show st8fail.countActive = Except.ok 4 from rfl]
    dsimp only
    rw [if_neg (by decide : ¬ (4 < 2))]
    rw [show st8fail.domainCounts =
      Except.ok [(("w.com").toList, 2), (("x.com").toList, 2)] from rfl]
    dsimp only
    rw [simLoop_cons_ok st8fail (9 / 10) 100 (("w.com").toList) 2 _ [] []
      [w7b1, w7b2] ([[w7b1, w7b2]], [(1, 2)]) (by decide) (by decide) rfl
      w7_batch_run]
    rw [simLoop_cons_ferr st8fail (9 / 10) 100 (("x.com").toList) 2 [] _ _ ()
      (by decide) (by decide) rfl]
    rfl
  · unfold find_similar_duplicates
    rw [show st8trunc.countActive = Except.ok 4 from rfl]
    dsimp only
    rw [if_neg (by decide : ¬ (4 < 2))]
    rw [show st8trunc.domainCounts = Except.ok [(("w.com").toList, 2)] from rfl]
    dsimp only
    rw [simLoop_cons_ok st8trunc (9 / 10) 100 (("w.com").toList) 2 _ [] []
      [w7b1, w7b2] ([[w7b1, w7b2]], [(1, 2)]) (by decide) (by decide) rfl
      w7_batch_run]
    rw [simLoop_nil]
    rfl

/-- C8 witness: the amended truncation equivalence applied to the two
concrete stores. -/
theorem claim8_witness :
    find_similar_duplicates st8fail (9 / 10) 100 =
      find_similar_duplicates st8trunc (9 / 10) 100 :=
  claim8_amended st8fail st8trunc (9 / 10) 100 [(("w.com").toList, 2)] []
    (("x.com").toList) 2 4 rfl rfl rfl rfl (fun _ _ => rfl)
    (by decide) (by decide) rfl


/-! ## String lemmas for the normalizer idempotence analysis -/

theorem dropWhile_eq_self_all (p : Char → Bool) (s : Str)
    (h : ∀ c ∈ s, p c = false) : s.dropWhile p = s := by
  cases s with
  | nil => rfl
  | cons c t => simp [List.dropWhile_cons, h c (by simp)]

theorem pyStrip_eq_self (s : Str) (h : ∀ c ∈ s, pyIsSpace c = false) :
    pyStrip s = s := by
  unfold pyStrip
  rw [dropWhile_eq_self_all _ s h,
    dropWhile_eq_self_all _ s.reverse (fun c hc => h c (List.mem_reverse.mp hc)),
    List.reverse_reverse]

theorem gt32_not_space (c : Char) (h : 32 < c.toNat) : pyIsSpace c = false := by
  by_contra hne
  have ht : pyIsSpace c = true := by simpa using hne
  unfold pyIsSpace at ht
  simp only [Bool.or_eq_true, decide_eq_true_eq] at ht
  rcases ht with ((((rfl | rfl) | rfl) | rfl) | rfl) | rfl <;>
    exact absurd h (by decide)

theorem gt32_ne_of_le (c d : Char) (hd : d.toNat ≤ 32) (h : 32 < c.toNat) :
    c ≠ d := by
  intro he
  rw [he] at h
  omega

theorem pyLower_append (a b : Str) :
    pyLower (a ++ b) = pyLower a ++ pyLower b := List.map_append _ a b

theorem takeWhile_append_all (p : Char → Bool) (a b : Str)
    (h : ∀ c ∈ a, p c = true) :
    (a ++ b).takeWhile p = a ++ b.takeWhile p := by
  induction a with
  | nil => rfl
  | cons c t ih =>
    rw [List.cons_append, List.takeWhile_cons, if_pos (h c (by simp)),
      ih (fun d hd => h d (by simp [hd])), List.cons_append]

theorem dropWhile_append_all (p : Char → Bool) (a b : Str)
    (h : ∀ c ∈ a, p c = true) :
    (a ++ b).dropWhile p = b.dropWhile p := by
  induction a with
  | nil => rfl
  | cons c t ih =>
    rw [List.cons_append, List.dropWhile_cons, if_pos (h c (by simp))]
    exact ih (fun d hd => h d (by simp [hd]))

theorem findIdx?_append_start (p : Char → Bool) (x : Char) (b : Str)
    (hx : p x = true) :
    ∀ (a : Str) (i : Nat), (∀ c ∈ a, p c = false) →
      (a ++ x :: b).findIdx? p i = some (a.length + i) := by
  intro a
  induction a with
  | nil =>
    intro i _
    simp [List.findIdx?_cons, hx]
  | cons c t ih =>
    intro i h
    rw [List.cons_append, List.findIdx?_cons, if_neg (by simp [h c (by simp)])]
    rw [ih (i + 1) (fun d hd => h d (by simp [hd]))]
    congr 1
    simp
    omega

theorem pyFindChar_append (a b : Str) (x : Char) (h : ∀ c ∈ a, (c = x) = False) :
    pyFindChar (a ++ x :: b) x = some a.length := by
  unfold pyFindChar
  rw [findIdx?_append_start (fun d => d = x) x b (by simp) a 0
    (fun c hc => by simp [h c hc])]
  simp

theorem pySplitFirst_not_mem (sep : Char) (s : Str)
    (h : ∀ c ∈ s, c ≠ sep) : pySplitFirst sep s = (s, none) := by
  induction s with
  | nil => rfl
  | cons c t ih =>
    rw [pySplitFirst, if_neg (by exact h c (by simp))]
    rw [ih (fun d hd => h d (by simp [hd]))]

theorem pySplitFirst_append (sep : Char) (a b : Str)
    (h : ∀ c ∈ a, c ≠ sep) : pySplitFirst sep (a ++ sep :: b) = (a, some b) := by
  induction a with
  | nil =>
    rw [List.nil_append, pySplitFirst, if_pos rfl]
  | cons c t ih =>
    rw [List.cons_append, pySplitFirst, if_neg (by exact h c (by simp))]
    rw [ih (fun d hd => h d (by simp [hd]))]

theorem contains_eq_false_all (s : Str) (d : Char)
    (h : ∀ c ∈ s, c ≠ d) : s.contains d = false := by
  cases hc : s.contains d with
  | false => rfl
  | true =>
    have : d ∈ s := by simpa using hc
    exact absurd rfl (h d this)

theorem dropWhile_idem (p : Char → Bool) (s : Str) :
    (s.dropWhile p).dropWhile p = s.dropWhile p := by
  induction s with
  | nil => rfl
  | cons c t ih =>
    rw [List.dropWhile_cons]
    by_cases hc : p c = true
    · rw [if_pos hc]
      exact ih
    · rw [if_neg hc, List.dropWhile_cons, if_neg hc]

theorem pyRstrip_idem (s : Str) (cs : List Char) :
    pyRstrip (pyRstrip s cs) cs = pyRstrip s cs := by
  unfold pyRstrip
  rw [List.reverse_reverse, dropWhile_idem]

theorem cleanPath_ne_nil (p : Str) : cleanPath p ≠ [] := by
  unfold cleanPath
  dsimp only
  by_cases h : pyRstrip p ['/'] = []
  · rw [if_pos h]
    simp
  · rw [if_neg h]
    exact h

theorem cleanPath_idem (p : Str) : cleanPath (cleanPath p) = cleanPath p := by
  unfold cleanPath
  dsimp only
  by_cases h : pyRstrip p ['/'] = []
  · rw [if_pos h]
    rfl
  · rw [if_neg h, pyRstrip_idem, if_neg h]


theorem schemeChars_ne_colon (c : Char) (h : schemeChars.contains c = true) :
    c ≠ ':' := by
  intro he
  rw [he] at h
  exact absurd h (by decide)

theorem drop_append_succ (a b : Str) (x : Char) :
    (a ++ x :: b).drop (a.length + 1) = b := by
  have h : a ++ x :: b = (a ++ [x]) ++ b := by simp
  rw [h, show a.length + 1 = (a ++ [x]).length by simp, List.drop_left]

theorem schemeSplit_canonical (sch rest : Str)
    (h0 : sch ≠ [])
    (ha : sch.headI.isAlpha = true)
    (hs : (sch.all fun c => schemeChars.contains c) = true)
    (hl : pyLower sch = sch) :
    schemeSplit (sch ++ ':' :: rest) = (sch, rest) := by
  obtain ⟨c0, sch2, rfl⟩ : ∃ c0 sch2, sch = c0 :: sch2 := by
    cases sch with
    | nil => exact absurd rfl h0
    | cons a t => exact ⟨a, t, rfl⟩
  unfold schemeSplit
  rw [pyFindChar_append _ rest ':' ?hno]
  case hno =>
    intro c hc
    simp only [eq_iff_iff, iff_false]
    have hcc := List.all_eq_true.mp hs c hc
    exact schemeChars_ne_colon c (by simpa using hcc)
  dsimp only
  rw [if_pos (by simp : 0 < (c0 :: sch2).length)]
  rw [show (c0 :: sch2) ++ ':' :: rest = c0 :: (sch2 ++ ':' :: rest)
    from rfl]
  dsimp only
  rw [show c0 :: (sch2 ++ ':' :: rest) = (c0 :: sch2) ++ ':' :: rest
    from rfl]
  rw [if_pos ?cond]
  case cond =>
    refine ⟨by simpa using ha, ?_⟩
    rw [List.take_left]
    exact hs
  rw [List.take_left, hl, drop_append_succ]


theorem urlsplitE_canonical (sch netloc path q qp : Str)
    (hqp : (q = [] ∧ qp = []) ∨ (q ≠ [] ∧ qp = '?' :: q))
    (h0 : sch ≠ []) (ha : sch.headI.isAlpha = true)
    (hsall : (sch.all fun c => schemeChars.contains c) = true)
    (hsl : pyLower sch = sch)
    (hs32 : (sch.all fun c => 32 < c.toNat) = true)
    (hn : (netloc.all fun c => 32 < c.toNat ∧ c ≠ '/' ∧ c ≠ '?' ∧ c ≠ '#' ∧
      c ≠ '[' ∧ c ≠ ']') = true)
    (hp0 : path ≠ []) (hph : path.headI = '/')
    (hp : (path.all fun c => 32 < c.toNat ∧ c ≠ '?' ∧ c ≠ '#') = true)
    (hq : (q.all fun c => 32 < c.toNat ∧ c ≠ '#') = true) :
    urlsplitE (sch ++ ':' :: '/' :: '/' :: (netloc ++ path ++ qp)) =
      Except.ok ⟨sch, netloc, path, q, []⟩ := by
  have hall : ∀ c ∈ sch ++ ':' :: '/' :: '/' :: (netloc ++ path ++ qp),
      32 < c.toNat := by
    intro c hc
    simp only [List.mem_append, List.mem_cons] at hc
    rcases hc with hc | hc | hc | hc | (hc | hc) | hc
    · simpa using List.all_eq_true.mp hs32 c hc
    · rw [hc]; decide
    · rw [hc]; decide
    · rw [hc]; decide
    · have := List.all_eq_true.mp hn c hc
      simp only [decide_eq_true_eq] at this
      exact this.1
    · have := List.all_eq_true.mp hp c hc
      simp only [decide_eq_true_eq] at this
      exact this.1
    · rcases hqp with ⟨_, hqe⟩ | ⟨_, hqe⟩
      · rw [hqe] at hc
        exact absurd hc (by simp)
      · rw [hqe] at hc
        rcases List.mem_cons.mp hc with rfl | hc
        · decide
        · have := List.all_eq_true.mp hq c hc
          simp only [decide_eq_true_eq] at this
          exact this.1
  unfold urlsplitE
  dsimp only
  rw [dropWhile_eq_self_all _ _ (fun c hc => by
    simpa using Nat.not_le.mpr (hall c hc))]
  rw [List.filter_eq_self.mpr (fun c hc => by
    have h32 := hall c hc
    have ht : c ≠ '\t' := gt32_ne_of_le c '\t' (by decide) h32
    have hr : c ≠ '\x0d' := gt32_ne_of_le c '\x0d' (by decide) h32
    have hl2 : c ≠ '\n' := gt32_ne_of_le c '\n' (by decide) h32
    simp [ht, hr, hl2])]
  rw [schemeSplit_canonical sch _ h0 ha hsall hsl]
  dsimp only
  have htake : List.take 2 ('/' :: '/' :: (netloc ++ path ++ qp)) = ['/', '/'] := rfl
  have hdrop : List.drop 2 ('/' :: '/' :: (netloc ++ path ++ qp)) =
    netloc ++ path ++ qp := rfl
  rw [if_pos htake, hdrop]
  obtain ⟨pc, path2, rfl⟩ : ∃ pc path2, path = pc :: path2 := by
    cases path with
    | nil => exact absurd rfl hp0
    | cons a t => exact ⟨a, t, rfl⟩
  have hpc : pc = '/' := by simpa using hph
  subst hpc
  unfold splitnetloc
  rw [List.append_assoc]
  rw [takeWhile_append_all _ netloc _ (fun c hc => by
    have := List.all_eq_true.mp hn c hc
    simp only [decide_eq_true_eq] at this
    simp [this.2.1, this.2.2.1, this.2.2.2.1])]
  rw [dropWhile_append_all _ netloc _ (fun c hc => by
    have := List.all_eq_true.mp hn c hc
    simp only [decide_eq_true_eq] at this
    simp [this.2.1, this.2.2.1, this.2.2.2.1])]
  rw [List.cons_append]
  have hslashT : (decide (('/' : Char) ≠ '/' ∧ ('/' : Char) ≠ '?' ∧
      ('/' : Char) ≠ '#')) = false := by decide
  rw [List.takeWhile_cons, List.dropWhile_cons, hslashT,
    if_neg (show ¬ (false = true) by decide),
    if_neg (show ¬ (false = true) by decide), List.append_nil]
  dsimp only
  have hbr1 : netloc.contains '[' = false :=
    contains_eq_false_all netloc '[' (fun c hc => by
      have := List.all_eq_true.mp hn c hc
      simp only [decide_eq_true_eq] at this
      exact this.2.2.2.2.1)
  have hbr2 : netloc.contains ']' = false :=
    contains_eq_false_all netloc ']' (fun c hc => by
      have := List.all_eq_true.mp hn c hc
      simp only [decide_eq_true_eq] at this
      exact this.2.2.2.2.2)
  rw [hbr1, hbr2,
    if_neg (show ¬ (false = true ∨ false = true) by decide)]
  have hfrag : pySplitFirst '#' ('/' :: (path2 ++ qp)) =
      ('/' :: (path2 ++ qp), none) := by
    apply pySplitFirst_not_mem
    intro c hc
    rcases List.mem_cons.mp hc with rfl | hc
    · decide
    rcases List.mem_append.mp hc with hc | hc
    · have := List.all_eq_true.mp hp c (by simp [hc])
      simp only [decide_eq_true_eq] at this
      exact this.2.2
    · rcases hqp with ⟨_, hqe⟩ | ⟨_, hqe⟩
      · rw [hqe] at hc
        exact absurd hc (by simp)
      · rw [hqe] at hc
        rcases List.mem_cons.mp hc with rfl | hc
        · decide
        · have := List.all_eq_true.mp hq c hc
          simp only [decide_eq_true_eq] at this
          exact this.2
  rw [hfrag]
  dsimp only
  have hpnq : ∀ c ∈ ('/' :: path2), c ≠ '?' := by
    intro c hc
    have := List.all_eq_true.mp hp c hc
    simp only [decide_eq_true_eq] at this
    exact this.2.1
  rcases hqp with ⟨hqnil, hqe⟩ | ⟨_, hqe⟩
  · subst hqe
    subst hqnil
    rw [List.append_nil]
    rw [pySplitFirst_not_mem '?' ('/' :: path2) hpnq]
    rfl
  · subst hqe
    rw [← List.cons_append]
    rw [pySplitFirst_append '?' ('/' :: path2) q hpnq]
    rfl

theorem except_bind_ok {α β : Type} (a : α) (f : α → Except Unit β) :
    (Except.ok a >>= f) = f a := rfl

theorem urlparseE_canonical (sch netloc path q qp : Str)
    (hqp : (q = [] ∧ qp = []) ∨ (q ≠ [] ∧ qp = '?' :: q))
    (h0 : sch ≠ []) (ha : sch.headI.isAlpha = true)
    (hsall : (sch.all fun c => schemeChars.contains c) = true)
    (hsl : pyLower sch = sch)
    (hs32 : (sch.all fun c => 32 < c.toNat) = true)
    (hn : (netloc.all fun c => 32 < c.toNat ∧ c ≠ '/' ∧ c ≠ '?' ∧ c ≠ '#' ∧
      c ≠ '[' ∧ c ≠ ']') = true)
    (hp0 : path ≠ []) (hph : path.headI = '/')
    (hp : (path.all fun c => 32 < c.toNat ∧ c ≠ '?' ∧ c ≠ '#') = true)
    (hsemi : (path.all fun c => c ≠ ';') = true)
    (hq : (q.all fun c => 32 < c.toNat ∧ c ≠ '#') = true) :
    urlparseE (sch ++ ':' :: '/' :: '/' :: (netloc ++ path ++ qp)) =
      Except.ok ⟨sch, netloc, path, [], q, []⟩ := by
  unfold urlparseE
  rw [urlsplitE_canonical sch netloc path q qp hqp h0 ha hsall hsl hs32 hn
    hp0 hph hp hq]
  rw [except_bind_ok]
  dsimp only
  have hsc : path.contains ';' = false :=
    contains_eq_false_all path ';' (fun c hc => by
      simpa using List.all_eq_true.mp hsemi c hc)
  rw [hsc, if_neg (show ¬ (usesParams.contains sch = true ∧ false = true) by
    simp)]
  rfl


/-- The rebuilt query string of normalize_url. -/
def normQuery (q : Str) : Str :=
  pyJoin ['&'] ((filteredSortedQuery q).map rebuildItem)

theorem urlunparse_canonical (sch netloc cp nq : Str)
    (hnet : netloc ≠ []) (hsch : sch ≠ [])
    (hcp0 : cp ≠ []) (hcph : cp.headI = '/') :
    urlunparse sch netloc cp [] nq [] =
      sch ++ ':' :: '/' :: '/' ::
        (netloc ++ cp ++ (if nq = [] then [] else '?' :: nq)) := by
  obtain ⟨pc, cp2, rfl⟩ : ∃ pc cp2, cp = pc :: cp2 := by
    cases cp with
    | nil => exact absurd rfl hcp0
    | cons a t => exact ⟨a, t, rfl⟩
  have hpc : pc = '/' := by simpa using hcph
  subst hpc
  have h1 : urlunparse sch netloc ('/' :: cp2) [] nq [] =
      urlunsplit sch netloc ('/' :: cp2) nq [] := by
    unfold urlunparse
    rw [if_neg (show ¬ (([] : Str) ≠ []) by simp)]
  rw [h1]
  unfold urlunsplit
  dsimp only
  rw [if_pos (Or.inl hnet)]
  rw [if_neg (show ¬ (('/' :: cp2 : Str) ≠ [] ∧
    ('/' :: cp2 : Str).take 1 ≠ ['/']) by simp)]
  rw [if_pos hsch]
  by_cases hnq : nq = []
  · subst hnq
    rw [if_neg (show ¬ (([] : Str) ≠ []) by simp)]
    rw [if_neg (show ¬ (([] : Str) ≠ []) by simp)]
    simp
  · rw [if_pos hnq]
    rw [if_neg (show ¬ (([] : Str) ≠ []) by simp)]
    rw [if_neg (by simpa using hnq)]
    simp


theorem pyLower_cons (c : Char) (X : Str)
    (h : (if 'A' ≤ c ∧ c ≤ 'Z' then Char.ofNat (c.toNat + 32) else c) = c) :
    pyLower (c :: X) = c :: pyLower X := by
  unfold pyLower
  rw [List.map_cons]
  rw [h]

/-- C4 amended: normalize is not idempotent in general; it is idempotent
on the parse-failure fallback (whose lower-strip preprocessing leaves the
fallback string unchanged), and on the parse success path whenever the
canonical form's components are well behaved: lowercase printable
components free of the separator characters, a non-empty host, no params,
and a rebuilt query on which the parse-filter-sort-rebuild cycle is
stable.  The counterexample shows the query cycle is genuinely unstable
for multi-valued keys, so the unconditional claim fails. -/
theorem claim4_amended (url : Str) :
    (∀ e, urlparseE (pyLower (pyStrip url)) = Except.error e →
      pyLower (pyStrip (normalize_url url)) = normalize_url url →
      normalize_url (normalize_url url) = normalize_url url) ∧
    (∀ p : ParseResult, urlparseE (pyLower (pyStrip url)) = Except.ok p →
      p.scheme ≠ [] →
      p.scheme.headI.isAlpha = true →
      (p.scheme.all fun c => schemeChars.contains c) = true →
      pyLower p.scheme = p.scheme →
      (p.scheme.all fun c => 32 < c.toNat) = true →
      p.netloc ≠ [] →
      (p.netloc.all fun c => 32 < c.toNat ∧ c ≠ '/' ∧ c ≠ '?' ∧ c ≠ '#' ∧
        c ≠ '[' ∧ c ≠ ']') = true →
      pyLower p.netloc = p.netloc →
      (cleanPath p.path).headI = '/' →
      ((cleanPath p.path).all fun c =>
        32 < c.toNat ∧ c ≠ '?' ∧ c ≠ '#' ∧ c ≠ ';') = true →
      pyLower (cleanPath p.path) = cleanPath p.path →
      p.params = [] →
      ((normQuery p.query).all fun c => 32 < c.toNat ∧ c ≠ '#') = true →
      pyLower (normQuery p.query) = normQuery p.query →
      normQuery (normQuery p.query) = normQuery p.query →
      normalize_url (normalize_url url) = normalize_url url) := by
  constructor
  · intro e herr hstab
    have h1 : normalize_url url = pyLower (pyStrip url) := by
      unfold normalize_url
      dsimp only
      rw [herr]
    rw [h1] at hstab ⊢
    unfold normalize_url
    dsimp only
    rw [hstab, herr]
  · intro p hp hsch0 hscha hschall hschl hsch32 hnet0 hnetall hnetl hcph
      hcpall hcpl hparams hnqall hnql hnqstab
    have hn : normalize_url url =
        urlunparse p.scheme p.netloc (cleanPath p.path) p.params
          (normQuery p.query) [] := by
      unfold normalize_url
      dsimp only
      rw [hp]
      rfl
    rw [hparams] at hn
    have hshape := urlunparse_canonical p.scheme p.netloc (cleanPath p.path)
      (normQuery p.query) hnet0 hsch0 (cleanPath_ne_nil p.path) hcph
    have hqpd : (normQuery p.query = [] ∧
        (if normQuery p.query = [] then ([] : Str)
          else '?' :: normQuery p.query) = []) ∨
        (normQuery p.query ≠ [] ∧
        (if normQuery p.query = [] then ([] : Str)
          else '?' :: normQuery p.query) = '?' :: normQuery p.query) := by
      by_cases hnq : normQuery p.query = []
      · exact Or.inl ⟨hnq, if_pos hnq⟩
      · exact Or.inr ⟨hnq, if_neg hnq⟩
    have hcp3 : ((cleanPath p.path).all fun c =>
        32 < c.toNat ∧ c ≠ '?' ∧ c ≠ '#') = true := by
      rw [List.all_eq_true] at hcpall ⊢
      intro c hc
      have := hcpall c hc
      simp only [decide_eq_true_eq] at this ⊢
      exact ⟨this.1, this.2.1, this.2.2.1⟩
    have hsemi : ((cleanPath p.path).all fun c => c ≠ ';') = true := by
      rw [List.all_eq_true] at hcpall ⊢
      intro c hc
      have := hcpall c hc
      simp only [decide_eq_true_eq] at this ⊢
      exact this.2.2.2
    have hparse2 := urlparseE_canonical p.scheme p.netloc (cleanPath p.path)
      (normQuery p.query)
      (if normQuery p.query = [] then ([] : Str) else '?' :: normQuery p.query)
      hqpd hsch0 hscha hschall hschl hsch32 hnetall (cleanPath_ne_nil p.path)
      hcph hcp3 hsemi hnqall
    have hall32 : ∀ c ∈ p.scheme ++ ':' :: '/' :: '/' ::
        (p.netloc ++ cleanPath p.path ++
          (if normQuery p.query = [] then ([] : Str)
            else '?' :: normQuery p.query)), 32 < c.toNat := by
      intro c hc
      simp only [List.mem_append, List.mem_cons] at hc
      rcases hc with hc | hc | hc | hc | (hc | hc) | hc
      · simpa using List.all_eq_true.mp hsch32 c hc
      · rw [hc]; decide
      · rw [hc]; decide
      · rw [hc]; decide
      · have := List.all_eq_true.mp hnetall c hc
        simp only [decide_eq_true_eq] at this
        exact this.1
      · have := List.all_eq_true.mp hcpall c hc
        simp only [decide_eq_true_eq] at this
        exact this.1
      · by_cases hnq : normQuery p.query = []
        · rw [if_pos hnq] at hc
          exact absurd hc (by simp)
        · rw [if_neg hnq] at hc
          rcases List.mem_cons.mp hc with rfl | hc
          · decide
          · have := List.all_eq_true.mp hnqall c hc
            simp only [decide_eq_true_eq] at this
            exact this.1
    have hstrip : pyStrip (p.scheme ++ ':' :: '/' :: '/' ::
        (p.netloc ++ cleanPath p.path ++
          (if normQuery p.query = [] then ([] : Str)
            else '?' :: normQuery p.query))) =
        p.scheme ++ ':' :: '/' :: '/' ::
        (p.netloc ++ cleanPath p.path ++
          (if normQuery p.query = [] then ([] : Str)
            else '?' :: normQuery p.query)) :=
      pyStrip_eq_self _ (fun c hc => gt32_not_space c (hall32 c hc))
    have hlowsep : pyLower (':' :: '/' :: '/' ::
        (p.netloc ++ cleanPath p.path ++
          (if normQuery p.query = [] then ([] : Str)
            else '?' :: normQuery p.query))) =
        ':' :: '/' :: '/' ::
          (pyLower (p.netloc ++ cleanPath p.path ++
            (if normQuery p.query = [] then ([] : Str)
              else '?' :: normQuery p.query))) := by
      rw [pyLower_cons ':' _ (by decide), pyLower_cons '/' _ (by decide),
        pyLower_cons '/' _ (by decide)]
    have hlow : pyLower (p.scheme ++ ':' :: '/' :: '/' ::
        (p.netloc ++ cleanPath p.path ++
          (if normQuery p.query = [] then ([] : Str)
            else '?' :: normQuery p.query))) =
        p.scheme ++ ':' :: '/' :: '/' ::
        (p.netloc ++ cleanPath p.path ++
          (if normQuery p.query = [] then ([] : Str)
            else '?' :: normQuery p.query)) := by
      rw [pyLower_append, hschl, hlowsep, pyLower_append, pyLower_append,
        hnetl, hcpl]
      by_cases hnq : normQuery p.query = []
      · rw [if_pos hnq]
        rfl
      · rw [if_neg hnq]
        rw [pyLower_cons '?' _ (by decide), hnql]
    rw [hn, hshape]
    unfold normalize_url
    dsimp only
    rw [hstrip, hlow, hparse2]
    dsimp only
    rw [cleanPath_idem]
    rw [show pyJoin ['&'] ((filteredSortedQuery (normQuery p.query)).map
      rebuildItem) = normQuery (normQuery p.query) from rfl]
    rw [hnqstab]
    rw [urlunparse_canonical p.scheme p.netloc (cleanPath p.path)
      (normQuery p.query) hnet0 hsch0 (cleanPath_ne_nil p.path) hcph]


set_option maxRecDepth 1000000 in
/-- C4 counterexample: a multi-valued query key breaks idempotence.  The
first pass turns a=1&a=2 into the single item a=1&2; the second pass
re-parses that as a=1 plus a field 2 without =, which parse_qs drops, so
the third string differs from the second. -/
theorem claim4_counterexample :
    normalize_url (normalize_url ("http://x.com/?a=1&a=2").toList) ≠
      normalize_url ("http://x.com/?a=1&a=2").toList := by
  decide

/-- C4 witness: the amended success-path idempotence applied to a
concrete well-behaved URL. -/
theorem claim4_witness :
    normalize_url (normalize_url ("https://example.com/a").toList) =
      normalize_url ("https://example.com/a").toList :=
  (claim4_amended (("https://example.com/a").toList)).2
    ⟨("https").toList, ("example.com").toList, ("/a").toList, [], [], []⟩
    (by decide) (by decide) (by decide) (by decide) (by decide) (by decide)
    (by decide) (by decide) (by decide) (by decide) (by decide) (by decide)
    rfl (by decide) (by decide) (by decide)

end Dedup
